import Mathlib

/-!
Verification of the scheduling/state-machine core of the `learn_words`
vocabulary trainer (`src/main.rs`), shallowly embedded in Lean.

Machine integers are modelled as `Nat` with explicit reductions where the
Rust code can wrap: `u8` counters reduce modulo `256` and `u64` counters
modulo `2 ^ 64` at every increment.  Rust operations that can panic
(`unreachable!()`, `Vec::remove` / index out of bounds, `Option::unwrap`,
checked integer underflow) are modelled as `Option`-returning functions,
`none` standing for the panic.
-/

set_option autoImplicit false

namespace LearnWords

/-- Modulus of a Rust `u64`. -/
def u64Mod : Nat := 2 ^ 64

/-- Modulus of a Rust `u8`. -/
def u8Mod : Nat := 256

/-- `Day(u64)` from `main.rs`: an integer count of days. -/
abbrev Day := Nat

/-- `LearnType` from `main.rs`: one rung of the learning ladder.
`wait_days` and `count` are `u8` in Rust; they are configuration values,
modelled as plain naturals. -/
structure LearnType where
  wait_days : Nat
  count : Nat
  show_word : Bool
deriving DecidableEq

/-- `LearnType::show(wait_days, count)` (named `shows` because `show` is a
Lean keyword). -/
def LearnType.shows (wait_days count : Nat) : LearnType :=
  ⟨wait_days, count, true⟩

/-- `LearnType::guess(wait_days, count)`. -/
def LearnType.guess (wait_days count : Nat) : LearnType :=
  ⟨wait_days, count, false⟩

/-- `LearnType::can_learn_today`: the rung's waiting period has elapsed
between `last_learn` and `today`. -/
def LearnType.can_learn_today (l : LearnType) (last_learn today : Day) : Bool :=
  if last_learn ≤ today then decide (l.wait_days ≤ today - last_learn) else false

/-- `TypingStats` from `main.rs`: right/wrong attempt counters (`u64`). -/
structure TypingStats where
  right : Nat
  wrong : Nat
deriving DecidableEq

/-- `WordStatus` from `main.rs`: the per-pair learning state machine.
`current_level` and `current_count` are `u8` in Rust. -/
inductive WordStatus where
  | KnowPreviously
  | TrashWord
  | ToLearn (translation : String) (last_learn : Day)
      (current_level : Nat) (current_count : Nat) (stats : TypingStats)
  | Learned (translation : String) (stats : TypingStats)
deriving DecidableEq

/-- `stats.right += 1` on a `u64` counter. -/
def TypingStats.bumpRight (st : TypingStats) : TypingStats :=
  { st with right := (st.right + 1) % u64Mod }

/-- `stats.wrong += 1` on a `u64` counter. -/
def TypingStats.bumpWrong (st : TypingStats) : TypingStats :=
  { st with wrong := (st.wrong + 1) % u64Mod }

/-- `DayStatistics` from `main.rs`, restricted to the two fields the
embedded operations touch (`attempts`, bumped by attempt registration, and
`new_unknown_words_count`, bumped by `add_word`); the remaining fields
(`word_count_by_level`, the float `working_time`) are never read or written
by the functions modelled here. -/
structure DayStatistics where
  attempts : TypingStats
  new_unknown_words_count : Nat
deriving DecidableEq

namespace WordStatus

/-- `WordStatus::register_attempt`.  On a non-`ToLearn` record the Rust code
hits `unreachable!()`, modelled as `none`.  On a correct attempt the code
scans the ladder from `current_level` onward (`iter().skip(...)`) and
applies the progress update at the first rung whose wait has elapsed. -/
def register_attempt (s : WordStatus) (correct : Bool) (today : Day)
    (day_stats : DayStatistics) (type_count : List LearnType) :
    Option (WordStatus × DayStatistics) :=
  match s with
  | KnowPreviously => none
  | TrashWord => none
  | Learned _ _ => none
  | ToLearn tr last_learn current_level current_count st =>
    let st' : TypingStats := if correct then st.bumpRight else st.bumpWrong
    let ds' : DayStatistics :=
      if correct then { day_stats with attempts := day_stats.attempts.bumpRight }
      else { day_stats with attempts := day_stats.attempts.bumpWrong }
    if correct then
      let upd : Day × Nat × Nat :=
        match (type_count.drop current_level).find?
            (fun learn => learn.can_learn_today last_learn today) with
        | some learn =>
          if (current_count + 1) % u8Mod ≠ learn.count then
            (last_learn, current_level, (current_count + 1) % u8Mod)
          else
            (today, (current_level + 1) % u8Mod, 0)
        | none => (last_learn, current_level, current_count)
      if upd.2.1 = type_count.length then
        some (Learned tr st', ds')
      else
        some (ToLearn tr upd.1 upd.2.1 upd.2.2 st', ds')
    else
      some (ToLearn tr last_learn current_level current_count st', ds')

/-- `WordStatus::has_translation`. -/
def has_translation (s : WordStatus) (translation2 : String) : Bool :=
  match s with
  | KnowPreviously => false
  | TrashWord => false
  | ToLearn tr _ _ _ _ => tr == translation2
  | Learned tr _ => tr == translation2

/-- `WordStatus::has_hint`: guarded ladder lookup (`get ... unwrap_or(false)`). -/
def has_hint (s : WordStatus) (type_count : List LearnType) : Bool :=
  match s with
  | ToLearn _ _ current_level _ _ =>
    (type_count[current_level]?.map (fun x => x.show_word)).getD false
  | _ => false

/-- `WordStatus::can_learn_today`: guarded ladder lookup
(`get ... unwrap_or(false)`). -/
def can_learn_today (s : WordStatus) (today : Day) (type_count : List LearnType) : Bool :=
  match s with
  | ToLearn _ last_learn current_level _ _ =>
    (type_count[current_level]?.map
      (fun learn => learn.can_learn_today last_learn today)).getD false
  | _ => false

/-- `WordStatus::translation`. -/
def translation : WordStatus → Option String
  | ToLearn tr _ _ _ _ => some tr
  | Learned tr _ => some tr
  | _ => none

/-- `WordStatus::level`. -/
def level : WordStatus → Option Nat
  | ToLearn _ _ current_level _ _ => some current_level
  | _ => none

/-- `WordStatus::overdue_days`.  The Rust code indexes
`type_count[current_level]` without a guard (panic on out of bounds,
modelled as `none`), and returns `0` when `today` is strictly past the due
date but the remaining wait (`date_to_learn - today`) otherwise. -/
def overdue_days (s : WordStatus) (today : Day) (type_count : List LearnType) :
    Option Nat :=
  match s with
  | ToLearn _ last_learn current_level _ _ =>
    match type_count[current_level]? with
    | none => none
    | some learn =>
      let date_to_learn := last_learn + learn.wait_days
      some (if date_to_learn < today then 0 else date_to_learn - today)
  | _ => some 0

/-- `WordStatus::attempts_remains`: guarded ladder lookup; the `u8`
subtraction `learn.count - current_count` is modelled as checked (`none` on
underflow, the debug-build panic). -/
def attempts_remains (s : WordStatus) (today : Day) (type_count : List LearnType) :
    Option Nat :=
  match s with
  | ToLearn _ last_learn current_level current_count _ =>
    match type_count[current_level]? with
    | some learn =>
      if learn.can_learn_today last_learn today then
        if current_count ≤ learn.count then some (learn.count - current_count)
        else none
      else some 0
    | none => some 0
  | _ => some 0

end WordStatus

/-- Iterated incorrect attempts: `register_attempt` with `correct = false`,
`n` times in sequence, propagating the panic case. -/
def applyIncorrect : Nat → WordStatus → DayStatistics → Day → List LearnType →
    Option (WordStatus × DayStatistics)
  | 0, s, ds, _, _ => some (s, ds)
  | n + 1, s, ds, today, tc =>
    match s.register_attempt false today ds tc with
    | none => none
    | some (s', ds') => applyIncorrect n s' ds' today tc

/-- On a ladder whose `wait_days` are sorted (non-decreasing), the first due
rung found by scanning a suffix is the very first rung of that suffix. -/
theorem find_due_sorted_head {l : List LearnType} {last today : Day} {learn : LearnType}
    (hsort : l.Pairwise (fun a b => a.wait_days ≤ b.wait_days))
    (hfind : l.find? (fun x => x.can_learn_today last today) = some learn) :
    l.head? = some learn := by
  cases l with
  | nil => simp at hfind
  | cons a rest =>
    by_cases hpa : a.can_learn_today last today = true
    · simp only [List.find?, hpa] at hfind
      simpa using hfind
    · simp only [List.find?, Bool.not_eq_true] at hpa
      simp only [List.find?, hpa] at hfind
      have hmem := List.mem_of_find?_eq_some hfind
      have hp := List.find?_some hfind
      have hle : a.wait_days ≤ learn.wait_days :=
        (List.pairwise_cons.mp hsort).1 learn hmem
      exfalso
      have hcan : a.can_learn_today last today = true := by
        by_cases hlt : last ≤ today
        · simp [LearnType.can_learn_today, hlt] at hp ⊢
          omega
        · simp [LearnType.can_learn_today, hlt] at hp
      rw [hpa] at hcan
      exact Bool.false_ne_true hcan


/-- On a sorted ladder, the rung found by `register_attempt`'s scan of the
suffix starting at the current level is the current rung itself. -/
theorem find_due_sorted_at_level {tc : List LearnType} {lvl : Nat} {last today : Day}
    {learn : LearnType}
    (hsort : tc.Pairwise (fun a b => a.wait_days ≤ b.wait_days))
    (hfind : (tc.drop lvl).find? (fun x => x.can_learn_today last today) = some learn) :
    tc[lvl]? = some learn := by
  have h1 := find_due_sorted_head (List.Pairwise.sublist (List.drop_sublist lvl tc) hsort) hfind
  rwa [List.head?_drop] at h1

/-- **C8**: for every `ToLearn` record, ladder and day, any number `n` of
incorrect `register_attempt` calls leaves `translation`, `last_learn`
(last_practiced), `current_level` (ladder_index), `current_count`
(rung_progress) and the correct counter unchanged, and only adds `n` to the
incorrect counter (reduced modulo `2 ^ 64`, the counter being a `u64`). -/
theorem C8_incorrect_attempts_frame (n : Nat) (tr : String) (last_learn : Day)
    (lvl cnt : Nat) (st : TypingStats) (ds : DayStatistics) (today : Day)
    (tc : List LearnType) (hst : st.wrong < u64Mod) (hds : ds.attempts.wrong < u64Mod) :
    applyIncorrect n (.ToLearn tr last_learn lvl cnt st) ds today tc =
      some (.ToLearn tr last_learn lvl cnt ⟨st.right, (st.wrong + n) % u64Mod⟩,
        ⟨⟨ds.attempts.right, (ds.attempts.wrong + n) % u64Mod⟩,
          ds.new_unknown_words_count⟩) := by
  induction n generalizing st ds with
  | zero =>
    simp [applyIncorrect, Nat.mod_eq_of_lt hst, Nat.mod_eq_of_lt hds]
  | succ n ih =>
    have hpos : 0 < u64Mod := Nat.two_pow_pos 64
    rw [applyIncorrect]
    simp only [WordStatus.register_attempt, Bool.false_eq_true, if_false,
      TypingStats.bumpWrong]
    rw [ih _ _ (Nat.mod_lt _ hpos) (Nat.mod_lt _ hpos)]
    simp [Nat.mod_add_mod]
    constructor
    · congr 1
      omega
    · congr 1
      omega

/-- Witness for C8 at a concrete input: three wrong answers in a row leave
everything but the wrong-counter unchanged. -/
theorem C8_incorrect_attempts_frame_witness :
    applyIncorrect 3 (.ToLearn "cat" 0 1 1 ⟨2, 5⟩) ⟨⟨0, 0⟩, 0⟩ 7 [LearnType.shows 0 2] =
      some (.ToLearn "cat" 0 1 1 ⟨2, (5 + 3) % u64Mod⟩, ⟨⟨0, (0 + 3) % u64Mod⟩, 0⟩) :=
  C8_incorrect_attempts_frame 3 "cat" 0 1 1 ⟨2, 5⟩ ⟨⟨0, 0⟩, 0⟩ 7 [LearnType.shows 0 2]
    (by norm_num [u64Mod]) (by norm_num [u64Mod])

/-- **C10**: a `ToLearn` record whose `current_level` is at or past the end
of the ladder makes `overdue_days` panic (unguarded index, modelled `none`),
while `can_learn_today`, `has_hint` and `attempts_remains` use guarded
lookup and return `false` / `false` / `0`. -/
theorem C10_out_of_range_ladder_queries (tr : String) (last_learn : Day) (lvl cnt : Nat)
    (st : TypingStats) (today : Day) (tc : List LearnType) (h : tc.length ≤ lvl) :
    WordStatus.overdue_days (.ToLearn tr last_learn lvl cnt st) today tc = none ∧
    WordStatus.can_learn_today (.ToLearn tr last_learn lvl cnt st) today tc = false ∧
    WordStatus.has_hint (.ToLearn tr last_learn lvl cnt st) tc = false ∧
    WordStatus.attempts_remains (.ToLearn tr last_learn lvl cnt st) today tc = some 0 := by
  have hnone : tc[lvl]? = none := List.getElem?_eq_none h
  simp [WordStatus.overdue_days, WordStatus.can_learn_today, WordStatus.has_hint,
    WordStatus.attempts_remains, hnone]

/-- Witness for C10 at a concrete input: a record at level 1 against a
one-rung ladder. -/
theorem C10_out_of_range_ladder_queries_witness :
    WordStatus.overdue_days (.ToLearn "cat" 0 1 0 ⟨0, 0⟩) 9 [LearnType.shows 0 2] = none ∧
    WordStatus.can_learn_today (.ToLearn "cat" 0 1 0 ⟨0, 0⟩) 9 [LearnType.shows 0 2] = false ∧
    WordStatus.has_hint (.ToLearn "cat" 0 1 0 ⟨0, 0⟩) [LearnType.shows 0 2] = false ∧
    WordStatus.attempts_remains (.ToLearn "cat" 0 1 0 ⟨0, 0⟩) 9 [LearnType.shows 0 2] = some 0 :=
  C10_out_of_range_ladder_queries "cat" 0 1 0 ⟨0, 0⟩ 9 [LearnType.shows 0 2] (by decide)

/-- Behavior of a correct attempt when the *current* rung is due: the scan
fires at the current rung; progress is incremented when one more repeat is
still needed, otherwise the record advances one level (becoming `Learned`
exactly when the new level equals the ladder length). -/
theorem register_attempt_fires_current (tr : String) (last : Day) (lvl cnt : Nat)
    (st : TypingStats) (ds : DayStatistics) (tc : List LearnType) (today : Day)
    (learn : LearnType) (hget : tc[lvl]? = some learn)
    (hdue : learn.can_learn_today last today = true) :
    WordStatus.register_attempt (.ToLearn tr last lvl cnt st) true today ds tc =
      (if (cnt + 1) % u8Mod ≠ learn.count then
        some (.ToLearn tr last lvl ((cnt + 1) % u8Mod) st.bumpRight,
          { ds with attempts := ds.attempts.bumpRight })
      else if (lvl + 1) % u8Mod = tc.length then
        some (.Learned tr st.bumpRight, { ds with attempts := ds.attempts.bumpRight })
      else
        some (.ToLearn tr today ((lvl + 1) % u8Mod) 0 st.bumpRight,
          { ds with attempts := ds.attempts.bumpRight })) := by
  obtain ⟨hlt, helem⟩ := List.getElem?_eq_some.mp hget
  have hdrop : tc.drop lvl = learn :: tc.drop (lvl + 1) := by
    rw [List.drop_eq_getElem_cons hlt, helem]
  have hfind : (tc.drop lvl).find? (fun x => x.can_learn_today last today) = some learn := by
    rw [hdrop]
    simp [List.find?, hdue]
  have hne : lvl ≠ tc.length := Nat.ne_of_lt hlt
  by_cases hc : (cnt + 1) % u8Mod = learn.count
  · simp [WordStatus.register_attempt, hfind, hc, hne]
  · simp [WordStatus.register_attempt, hfind, hc, hne]

/-- Behavior of a correct attempt when *no* rung from the current level
onward is due (and the level is not already past the ladder): only the
statistics change. -/
theorem register_attempt_no_rung_due (tr : String) (last : Day) (lvl cnt : Nat)
    (st : TypingStats) (ds : DayStatistics) (tc : List LearnType) (today : Day)
    (hnone : ∀ learn ∈ tc.drop lvl, learn.can_learn_today last today = false)
    (hne : lvl ≠ tc.length) :
    WordStatus.register_attempt (.ToLearn tr last lvl cnt st) true today ds tc =
      some (.ToLearn tr last lvl cnt st.bumpRight,
        { ds with attempts := ds.attempts.bumpRight }) := by
  have hfind : (tc.drop lvl).find? (fun x => x.can_learn_today last today) = none := by
    rw [List.find?_eq_none]
    intro a ha
    simp [hnone a ha]
  simp [WordStatus.register_attempt, hfind, hne]

/-- **C1 (amended)**: on a correct attempt, `register_attempt` scans the
ladder *from the current index onward* and applies the update at the first
due rung it meets (using that rung's `count`).  In particular, when the
current rung is due the update is exactly the claimed one — increment
`rung_progress` unless `rung_progress + 1` equals the rung's
`required_count`, otherwise reset progress, set `last_practiced = today`
and advance `ladder_index` by one, becoming `Learned` exactly when the new
index equals the ladder length; and a correct attempt makes no structural
change precisely when **no rung at or after** the current index is due (not,
as the claim states, already when the current rung is not due). -/
theorem C1_amended (tr : String) (last : Day) (lvl cnt : Nat) (st : TypingStats)
    (ds : DayStatistics) (tc : List LearnType) (today : Day) :
    (∀ learn, tc[lvl]? = some learn → learn.can_learn_today last today = true →
      WordStatus.register_attempt (.ToLearn tr last lvl cnt st) true today ds tc =
        (if (cnt + 1) % u8Mod ≠ learn.count then
          some (.ToLearn tr last lvl ((cnt + 1) % u8Mod) st.bumpRight,
            { ds with attempts := ds.attempts.bumpRight })
        else if (lvl + 1) % u8Mod = tc.length then
          some (.Learned tr st.bumpRight, { ds with attempts := ds.attempts.bumpRight })
        else
          some (.ToLearn tr today ((lvl + 1) % u8Mod) 0 st.bumpRight,
            { ds with attempts := ds.attempts.bumpRight }))) ∧
    ((∀ learn ∈ tc.drop lvl, learn.can_learn_today last today = false) → lvl ≠ tc.length →
      WordStatus.register_attempt (.ToLearn tr last lvl cnt st) true today ds tc =
        some (.ToLearn tr last lvl cnt st.bumpRight,
          { ds with attempts := ds.attempts.bumpRight })) :=
  ⟨fun learn hget hdue =>
    register_attempt_fires_current tr last lvl cnt st ds tc today learn hget hdue,
   fun hnone hne =>
    register_attempt_no_rung_due tr last lvl cnt st ds tc today hnone hne⟩

/-- **C1 counterexample**: against the ladder `[show(5,2), show(0,5)]` a
fresh record's current rung (index 0, wait 5) is *not* due on day 0, yet a
correct attempt still changes `rung_progress` from 0 to 1 — the scan
consulted the later due rung at index 1, refuting "no rung other than the
current one is ever consulted / no structural change when not due". -/
theorem C1_claim_counterexample :
    WordStatus.can_learn_today (.ToLearn "cat" 0 0 0 ⟨0, 0⟩) 0
        [LearnType.shows 5 2, LearnType.shows 0 5] = false ∧
    WordStatus.register_attempt (.ToLearn "cat" 0 0 0 ⟨0, 0⟩) true 0 ⟨⟨0, 0⟩, 0⟩
        [LearnType.shows 5 2, LearnType.shows 0 5] =
      some (.ToLearn "cat" 0 0 1 ⟨1, 0⟩, ⟨⟨1, 0⟩, 0⟩) := by
  constructor
  · decide
  · decide

/-- Witness for C1 (amended), both conjuncts at concrete inputs. -/
theorem C1_amended_witness :
    (WordStatus.register_attempt (.ToLearn "cat" 0 0 0 ⟨0, 0⟩) true 0 ⟨⟨0, 0⟩, 0⟩
        [LearnType.shows 0 2] =
      (if (0 + 1) % u8Mod ≠ (LearnType.shows 0 2).count then
        some (.ToLearn "cat" 0 0 ((0 + 1) % u8Mod) (TypingStats.bumpRight ⟨0, 0⟩),
          ⟨TypingStats.bumpRight ⟨0, 0⟩, 0⟩)
      else if (0 + 1) % u8Mod = [LearnType.shows 0 2].length then
        some (.Learned "cat" (TypingStats.bumpRight ⟨0, 0⟩),
          ⟨TypingStats.bumpRight ⟨0, 0⟩, 0⟩)
      else
        some (.ToLearn "cat" 0 ((0 + 1) % u8Mod) 0 (TypingStats.bumpRight ⟨0, 0⟩),
          ⟨TypingStats.bumpRight ⟨0, 0⟩, 0⟩))) ∧
    WordStatus.register_attempt (.ToLearn "dog" 0 0 0 ⟨0, 0⟩) true 0 ⟨⟨0, 0⟩, 0⟩
        [LearnType.shows 5 2] =
      some (.ToLearn "dog" 0 0 0 (TypingStats.bumpRight ⟨0, 0⟩),
        ⟨TypingStats.bumpRight ⟨0, 0⟩, 0⟩) :=
  ⟨(C1_amended "cat" 0 0 0 ⟨0, 0⟩ ⟨⟨0, 0⟩, 0⟩ [LearnType.shows 0 2] 0).1
      (LearnType.shows 0 2) (by decide) (by decide),
   (C1_amended "dog" 0 0 0 ⟨0, 0⟩ ⟨⟨0, 0⟩, 0⟩ [LearnType.shows 5 2] 0).2
      (by decide) (by decide)⟩

/-- **C2 (amended)**: the `ToLearn` invariant
`ladder_index ≤ ladder.len ∧ rung_progress < ladder[ladder_index].count`
is preserved by `register_attempt` *provided the ladder is well formed*:
every rung requires at least one repeat (`1 ≤ count`, with `count` a valid
`u8`) and the waiting periods are non-decreasing along the ladder (so the
scan always fires at the current rung).  Without these extra hypotheses the
claim fails (see the counterexample). -/
theorem C2_amended (tc : List LearnType)
    (hwf : ∀ learn ∈ tc, 1 ≤ learn.count ∧ learn.count < u8Mod)
    (hsort : tc.Pairwise (fun a b => a.wait_days ≤ b.wait_days))
    (tr : String) (last : Day) (lvl cnt : Nat) (st : TypingStats) (ds : DayStatistics)
    (correct : Bool) (today : Day)
    (hle : lvl ≤ tc.length)
    (hinv : ∀ learn, tc[lvl]? = some learn → cnt < learn.count)
    (tr' : String) (last' : Day) (lvl' cnt' : Nat) (st' : TypingStats) (ds' : DayStatistics)
    (hrun : WordStatus.register_attempt (.ToLearn tr last lvl cnt st) correct today ds tc =
      some (.ToLearn tr' last' lvl' cnt' st', ds')) :
    lvl' ≤ tc.length ∧ ∀ learn, tc[lvl']? = some learn → cnt' < learn.count := by
  cases correct with
  | false =>
    simp [WordStatus.register_attempt] at hrun
    obtain ⟨⟨h1, h2, h3, h4, h5⟩, h6⟩ := hrun
    subst h3
    subst h4
    exact ⟨hle, hinv⟩
  | true =>
    cases hfind : (tc.drop lvl).find? (fun x => x.can_learn_today last today) with
    | none =>
      by_cases hne : lvl = tc.length
      · simp [WordStatus.register_attempt, hfind, hne] at hrun
      · simp [WordStatus.register_attempt, hfind, hne] at hrun
        obtain ⟨⟨h1, h2, h3, h4, h5⟩, h6⟩ := hrun
        subst h3
        subst h4
        exact ⟨hle, hinv⟩
    | some learn =>
      have hget : tc[lvl]? = some learn := find_due_sorted_at_level hsort hfind
      obtain ⟨hlt, helem⟩ := List.getElem?_eq_some.mp hget
      have hcnt := hinv learn hget
      have hbound := hwf learn (List.getElem?_mem hget)
      have hmod : (cnt + 1) % u8Mod = cnt + 1 := Nat.mod_eq_of_lt (by omega)
      by_cases hc : (cnt + 1) % u8Mod = learn.count
      · by_cases hl : (lvl + 1) % u8Mod = tc.length
        · simp [WordStatus.register_attempt, hfind, hc, hl] at hrun
        · simp [WordStatus.register_attempt, hfind, hc, hl] at hrun
          obtain ⟨⟨h1, h2, h3, h4, h5⟩, h6⟩ := hrun
          subst h3
          subst h4
          constructor
          · exact le_trans (Nat.mod_le _ _) hlt
          · intro learn' hget'
            exact lt_of_lt_of_le Nat.zero_lt_one (hwf learn' (List.getElem?_mem hget')).1
      · have hne : lvl ≠ tc.length := Nat.ne_of_lt hlt
        simp [WordStatus.register_attempt, hfind, hc, hne] at hrun
        obtain ⟨⟨h1, h2, h3, h4, h5⟩, h6⟩ := hrun
        subst h3
        subst h4
        constructor
        · exact hle
        · intro learn' hget'
          rw [hget] at hget'
          cases hget'
          omega

/-- **C2 counterexample**: against the ladder `[show(0,1), show(0,0)]` — a
ladder the claim quantifies over, since it says "for every ladder" — a
fresh record satisfying the invariant (`ladder_index 0 ≤ 2`,
`rung_progress 0 < 1`) is taken by a correct attempt to a `ToLearn` record
with `ladder_index = 1 < 2` whose `rung_progress 0` is *not* below the new
rung's `required_count = 0`. -/
theorem C2_claim_counterexample :
    (0 : Nat) + 0 ≤ 2 ∧ (0 : Nat) < (LearnType.shows 0 1).count ∧
    WordStatus.register_attempt (.ToLearn "cat" 0 0 0 ⟨0, 0⟩) true 0 ⟨⟨0, 0⟩, 0⟩
        [LearnType.shows 0 1, LearnType.shows 0 0] =
      some (.ToLearn "cat" 0 1 0 ⟨1, 0⟩, ⟨⟨1, 0⟩, 0⟩) ∧
    [LearnType.shows 0 1, LearnType.shows 0 0][(1 : Nat)]? = some (LearnType.shows 0 0) ∧
    ¬ ((0 : Nat) < (LearnType.shows 0 0).count) :=
  ⟨by decide, by decide, by decide, by decide, by decide⟩

/-- Witness for C2 (amended) at a concrete input. -/
theorem C2_amended_witness :
    0 ≤ [LearnType.shows 0 2].length ∧
    (∀ learn, [LearnType.shows 0 2][(0 : Nat)]? = some learn → 1 < learn.count) :=
  C2_amended [LearnType.shows 0 2] (by decide) (by decide) "cat" 0 0 0 ⟨0, 0⟩ ⟨⟨0, 0⟩, 0⟩
    true 0 (by decide) (by decide) "cat" 0 0 1 ⟨1, 0⟩ ⟨⟨1, 0⟩, 0⟩ (by decide)

/-- **C7 (amended)**: after a correct attempt on a due current rung that
completes the rung (`rung_progress + 1 = required_count`) and leaves the
record in `ToLearn`, `last_practiced = today` and the due-check on the same
day is `false` *provided the new current rung has `wait_days > 0`* (with
`wait_days = 0` the record is due again immediately, refuting the claim as
stated); and on any day `d` the due-check of the advanced record is `true`
only when `today ≤ d` and `d - today ≥ wait_days` of the new rung. -/
theorem C7_amended (tr : String) (last : Day) (lvl cnt : Nat) (st : TypingStats)
    (ds : DayStatistics) (tc : List LearnType) (today : Day) (learn : LearnType)
    (hget : tc[lvl]? = some learn) (hdue : learn.can_learn_today last today = true)
    (hadv : (cnt + 1) % u8Mod = learn.count) (hlive : (lvl + 1) % u8Mod ≠ tc.length) :
    WordStatus.register_attempt (.ToLearn tr last lvl cnt st) true today ds tc =
      some (.ToLearn tr today ((lvl + 1) % u8Mod) 0 st.bumpRight,
        { ds with attempts := ds.attempts.bumpRight }) ∧
    (∀ w, tc[(lvl + 1) % u8Mod]? = some w → 0 < w.wait_days →
      WordStatus.can_learn_today
        (.ToLearn tr today ((lvl + 1) % u8Mod) 0 st.bumpRight) today tc = false) ∧
    (∀ d, WordStatus.can_learn_today
        (.ToLearn tr today ((lvl + 1) % u8Mod) 0 st.bumpRight) d tc = true →
      ∀ w, tc[(lvl + 1) % u8Mod]? = some w → today ≤ d ∧ w.wait_days ≤ d - today) := by
  refine ⟨?_, ?_, ?_⟩
  · have h1 := register_attempt_fires_current tr last lvl cnt st ds tc today learn hget hdue
    rw [h1]
    simp [hadv, hlive]
  · intro w hw hwait
    simp [WordStatus.can_learn_today, hw, LearnType.can_learn_today]
    omega
  · intro d hd w hw
    simp [WordStatus.can_learn_today, hw, LearnType.can_learn_today] at hd
    by_cases hle : today ≤ d
    · simp [hle] at hd
      exact ⟨hle, hd⟩
    · simp [hle] at hd

/-- **C7 counterexample**: with ladder `[show(0,1), show(0,1)]` a correct
attempt on day 0 advances a fresh record to `ladder_index 1` with
`last_practiced = 0`, and the due-check *on the same day* is `true`
(the new rung's `wait_days` is 0), refuting "`is_due` is false immediately
after a successful advance on the same Day". -/
theorem C7_claim_counterexample :
    WordStatus.register_attempt (.ToLearn "cat" 0 0 0 ⟨0, 0⟩) true 0 ⟨⟨0, 0⟩, 0⟩
        [LearnType.shows 0 1, LearnType.shows 0 1] =
      some (.ToLearn "cat" 0 1 0 ⟨1, 0⟩, ⟨⟨1, 0⟩, 0⟩) ∧
    WordStatus.can_learn_today (.ToLearn "cat" 0 1 0 ⟨1, 0⟩) 0
        [LearnType.shows 0 1, LearnType.shows 0 1] = true := by
  constructor
  · decide
  · decide

/-- Witness for C7 (amended) at a concrete input (advance from rung 0 to the
wait-2 rung 1 on day 3). -/
theorem C7_amended_witness :
    WordStatus.register_attempt (.ToLearn "cat" 3 0 0 ⟨0, 0⟩) true 3 ⟨⟨0, 0⟩, 0⟩
        [LearnType.shows 0 1, LearnType.shows 2 1, LearnType.shows 2 1] =
      some (.ToLearn "cat" 3 ((0 + 1) % u8Mod) 0 (TypingStats.bumpRight ⟨0, 0⟩),
        ⟨TypingStats.bumpRight ⟨0, 0⟩, 0⟩) ∧
    (∀ w, [LearnType.shows 0 1, LearnType.shows 2 1,
        LearnType.shows 2 1][(0 + 1) % u8Mod]? = some w → 0 < w.wait_days →
      WordStatus.can_learn_today
        (.ToLearn "cat" 3 ((0 + 1) % u8Mod) 0 (TypingStats.bumpRight ⟨0, 0⟩)) 3
        [LearnType.shows 0 1, LearnType.shows 2 1, LearnType.shows 2 1] = false) ∧
    (∀ d, WordStatus.can_learn_today
        (.ToLearn "cat" 3 ((0 + 1) % u8Mod) 0 (TypingStats.bumpRight ⟨0, 0⟩)) d
        [LearnType.shows 0 1, LearnType.shows 2 1, LearnType.shows 2 1] = true →
      ∀ w, [LearnType.shows 0 1, LearnType.shows 2 1,
          LearnType.shows 2 1][(0 + 1) % u8Mod]? = some w → 3 ≤ d ∧ w.wait_days ≤ d - 3) :=
  C7_amended "cat" 3 0 0 ⟨0, 0⟩ ⟨⟨0, 0⟩, 0⟩
    [LearnType.shows 0 1, LearnType.shows 2 1, LearnType.shows 2 1] 3 (LearnType.shows 0 1)
    (by decide) (by decide) (by decide) (by decide)

/-- `Words(BTreeMap<String, Vec<WordStatus>>)` from `main.rs`.  The
`BTreeMap` is modelled as an association list with unique keys
(`keysNodup`); the key ordering a `BTreeMap` maintains is immaterial to
every property below, which accesses the map only through `lookup`. -/
abbrev Words := List (String × List WordStatus)

namespace Words

/-- `BTreeMap::get`. -/
def lookup : Words → String → Option (List WordStatus)
  | [], _ => none
  | (k, v) :: rest, key => if k = key then some v else lookup rest key

/-- `BTreeMap::insert` (replaces the value of an existing key). -/
def insertW : Words → String → List WordStatus → Words
  | [], key, v => [(key, v)]
  | (k, w) :: rest, key, v =>
    if k = key then (key, v) :: rest else (k, w) :: insertW rest key v

/-- `BTreeMap::remove` (drops the entry of the key, if present). -/
def eraseW : Words → String → Words
  | [], _ => []
  | (k, w) :: rest, key => if k = key then rest else (k, w) :: eraseW rest key

/-- `self.0.entry(key).or_insert_with(Vec::new)` followed by pushing `rs`
onto the entry's vector. -/
def pushRecords (w : Words) (key : String) (rs : List WordStatus) : Words :=
  match lookup w key with
  | some l => insertW w key (l ++ rs)
  | none => w ++ [(key, rs)]

end Words

/-- `WordsToAdd` from `main.rs`. -/
inductive WordsToAdd where
  | KnowPreviously
  | TrashWord
  | ToLearn (learned : List String) (translations : List String)

namespace Words

/-- `Words::add_word`: create the forward records under `word` (active
`ToLearn` ones for `translations`, then `Learned` ones for `learned`), then
the mirrored record under each translation pointing back at `word`; each
created forward record bumps the day's new-word counter. -/
def add_word (w : Words) (word : String) (info : WordsToAdd) (today : Day)
    (day_stats : DayStatistics) : Words × DayStatistics :=
  match info with
  | .KnowPreviously => (pushRecords w word [.KnowPreviously], day_stats)
  | .TrashWord => (pushRecords w word [.TrashWord], day_stats)
  | .ToLearn learned translations =>
    let fwd : List WordStatus :=
      translations.map (fun t => WordStatus.ToLearn t today 0 0 ⟨0, 0⟩)
        ++ learned.map (fun t => WordStatus.Learned t ⟨0, 0⟩)
    let w1 := pushRecords w word fwd
    let w2 := translations.foldl
      (fun acc t => pushRecords acc t [WordStatus.ToLearn word today 0 0 ⟨0, 0⟩]) w1
    let w3 := learned.foldl
      (fun acc t => pushRecords acc t [WordStatus.Learned word ⟨0, 0⟩]) w2
    (w3, { day_stats with new_unknown_words_count :=
      (day_stats.new_unknown_words_count + translations.length + learned.length) % u64Mod })

/-- Helper for `Words::register_attempt`: walk the record list, delegate at
the first record whose translation matches.  Outer `none` = the delegated
call panicked (`unreachable!()`); `some none` = no record matched. -/
def registerFirst (l : List WordStatus) (translation : String) (correct : Bool)
    (today : Day) (ds : DayStatistics) (tc : List LearnType) :
    Option (Option (List WordStatus × DayStatistics)) :=
  match l with
  | [] => some none
  | r :: rest =>
    if r.has_translation translation then
      match r.register_attempt correct today ds tc with
      | none => none
      | some (r', ds') => some (some (r' :: rest, ds'))
    else
      (registerFirst rest translation correct today ds tc).map
        (fun res => res.map (fun p => (r :: p.1, p.2)))

/-- `Words::register_attempt`: look the word up and delegate to the first
record with the given translation.  Both lookup misses fall into the
`err!()` macro, which expands to *nothing* in the source, so they are
silent no-ops; only the delegated `unreachable!()` (a matched non-`ToLearn`
record) is fatal. -/
def register_attempt (w : Words) (word translation : String) (correct : Bool)
    (today : Day) (day_stats : DayStatistics) (type_count : List LearnType) :
    Option (Words × DayStatistics) :=
  match lookup w word with
  | none => some (w, day_stats)
  | some l =>
    match registerFirst l translation correct today day_stats type_count with
    | none => none
    | some none => some (w, day_stats)
    | some (some (l', ds')) => some (insertW w word l', ds')

/-- One iteration of the loop in `Words::remove_word`: filter the mirrored
records pointing back at `word` out of translation `t`'s list, then the
prune check — which reads `self.0.get(word)`, the key that was just
removed, exactly as the source does. -/
def removeStep (word : String) (acc : Words) (t : String) : Words :=
  let acc1 :=
    match lookup acc t with
    | some to_edit =>
      insertW acc t (to_edit.filter
        (fun r => ((r.translation).map (fun x => decide (x ≠ word))).getD true))
    | none => acc
  if ((lookup acc1 word).map List.isEmpty).getD false then eraseW acc1 t
  else acc1

/-- `Words::remove_word`: `self.0.remove(word).unwrap()` (panic when the
word is absent, modelled `none`), then the per-translation loop. -/
def remove_word (w : Words) (word : String) : Option Words :=
  match lookup w word with
  | none => none
  | some recs =>
    some ((recs.filterMap WordStatus.translation).foldl (removeStep word) (eraseW w word))

/-- The translation rewrite inside `Words::rename_word`
(`translation_mut` set to `new_word` when it currently equals `word`). -/
def renameTarget (r : WordStatus) (word new_word : String) : WordStatus :=
  match r with
  | .ToLearn tr a b c st => .ToLearn (if tr = word then new_word else tr) a b c st
  | .Learned tr st => .Learned (if tr = word then new_word else tr) st
  | other => other

/-- One iteration of the loop in `Words::rename_word`: rewrite translation
`t`'s mirror records so that targets equal to `word` become `new_word`. -/
def renameStep (word new_word : String) (acc : Words) (t : String) : Words :=
  match lookup acc t with
  | some to_edit => insertW acc t (to_edit.map (fun r => renameTarget r word new_word))
  | none => acc

/-- `Words::rename_word`: move the record list of `word` to `new_word`
(`BTreeMap::insert`, silently overwriting any list already stored under
`new_word`), then rewrite each referenced translation's mirror records. -/
def rename_word (w : Words) (word new_word : String) : Option Words :=
  match lookup w word with
  | none => none
  | some status =>
    some ((status.filterMap WordStatus.translation).foldl (renameStep word new_word)
      (insertW (eraseW w word) new_word status))

/-- `Words::max_overdue_days`: maximum of `overdue_days` over the word's
records (`0` for an unknown word); a panic of any `overdue_days` call
propagates. -/
def max_overdue_days (w : Words) (word : String) (today : Day)
    (type_count : List LearnType) : Option Nat :=
  match lookup w word with
  | none => some 0
  | some trs =>
    (trs.mapM (fun r => WordStatus.overdue_days r today type_count)).map
      (fun l => l.foldl max 0)

/-- `Words::can_learn_today`. -/
def can_learn_today (w : Words) (word : String) (today : Day)
    (type_count : List LearnType) : Bool :=
  ((lookup w word).map (fun l => l.any (fun r => r.can_learn_today today type_count))).getD
    false

end Words

/-- Some record in `l` points at the word `w`. -/
def pointsBack (l : List WordStatus) (w : String) : Bool :=
  l.any (fun r => r.translation == some w)

/-- The store's symmetry invariant: every `ToLearn`/`Learned` record under
a word `W` pointing at a translation `T` is mirrored by a record under `T`
pointing back at `W`. -/
def symmetric (s : Words) : Bool :=
  s.all (fun p =>
    p.2.all (fun r =>
      match r.translation with
      | none => true
      | some t => ((Words.lookup s t).map (fun l => pointsBack l p.1)).getD false))

/-- Key uniqueness, the representation invariant of the `BTreeMap` model. -/
def keysNodup (s : Words) : Prop :=
  (s.map Prod.fst).Nodup

namespace Words

theorem lookup_insertW_self (w : Words) (k : String) (v : List WordStatus) :
    lookup (insertW w k v) k = some v := by
  induction w with
  | nil => simp [insertW, lookup]
  | cons p rest ih =>
    by_cases h : p.1 = k
    · simp [insertW, h, lookup]
    · simp [insertW, h, lookup, ih]

theorem lookup_insertW_ne (w : Words) (k : String) (v : List WordStatus) (k' : String)
    (h : k' ≠ k) : lookup (insertW w k v) k' = lookup w k' := by
  have h' : ¬ k = k' := fun he => h he.symm
  induction w with
  | nil => simp [insertW, lookup, h']
  | cons p rest ih =>
    by_cases hp : p.1 = k
    · subst hp
      simp [insertW, lookup, h']
    · simp [insertW, hp, lookup, ih]

theorem lookup_eraseW_ne (w : Words) (k k' : String) (h : k' ≠ k) :
    lookup (eraseW w k) k' = lookup w k' := by
  have h' : ¬ k = k' := fun he => h he.symm
  induction w with
  | nil => simp [eraseW]
  | cons p rest ih =>
    by_cases hp : p.1 = k
    · subst hp
      simp [eraseW, lookup, h']
    · simp [eraseW, hp, lookup, ih]

theorem lookup_none_of_not_mem_keys (w : Words) (k : String)
    (h : k ∉ w.map Prod.fst) : lookup w k = none := by
  induction w with
  | nil => simp [lookup]
  | cons p rest ih =>
    simp only [List.map_cons, List.mem_cons] at h
    push_neg at h
    have h1 : ¬ p.1 = k := fun he => h.1 he.symm
    simp [lookup, h1, ih h.2]

theorem exists_lookup_of_mem_keys (w : Words) (k : String)
    (h : k ∈ w.map Prod.fst) : ∃ l, lookup w k = some l := by
  induction w with
  | nil => simp at h
  | cons p rest ih =>
    by_cases hp : p.1 = k
    · exact ⟨p.2, by simp [lookup, hp]⟩
    · simp only [List.map_cons, List.mem_cons] at h
      rcases h with h | h
      · exact absurd h.symm hp
      · rcases ih h with ⟨l, hl⟩
        exact ⟨l, by simp [lookup, hp, hl]⟩

theorem mem_keys_of_lookup_some (w : Words) (k : String) (l : List WordStatus)
    (h : lookup w k = some l) : k ∈ w.map Prod.fst := by
  induction w with
  | nil => simp [lookup] at h
  | cons p rest ih =>
    by_cases hp : p.1 = k
    · simp [hp]
    · simp only [lookup, hp, if_false] at h
      simp [ih h]

theorem lookup_eraseW_self (w : Words) (k : String) (h : keysNodup w) :
    lookup (eraseW w k) k = none := by
  induction w with
  | nil => simp [eraseW, lookup]
  | cons p rest ih =>
    simp only [keysNodup, List.map_cons, List.nodup_cons] at h
    by_cases hp : p.1 = k
    · simp only [eraseW, hp, if_true]
      exact lookup_none_of_not_mem_keys rest k (hp ▸ h.1)
    · simp only [eraseW, hp, if_false, lookup, if_neg hp]
      exact ih h.2

theorem keys_insertW (w : Words) (k : String) (v : List WordStatus) :
    (insertW w k v).map Prod.fst = if k ∈ w.map Prod.fst then w.map Prod.fst
      else w.map Prod.fst ++ [k] := by
  induction w with
  | nil => simp [insertW]
  | cons p rest ih =>
    by_cases hp : p.1 = k
    · simp [insertW, hp]
    · have hp' : ¬ k = p.1 := fun he => hp he.symm
      simp only [insertW, hp, if_false, List.map_cons, ih]
      by_cases hm : k ∈ rest.map Prod.fst
      · simp [hm, hp']
      · simp [hm, hp']

theorem keysNodup_insertW (w : Words) (k : String) (v : List WordStatus)
    (h : keysNodup w) : keysNodup (insertW w k v) := by
  unfold keysNodup at h ⊢
  rw [keys_insertW]
  by_cases hm : k ∈ w.map Prod.fst
  · simpa [hm]
  · simpa [hm, List.nodup_append]

theorem keys_eraseW_sublist (w : Words) (k : String) :
    ((eraseW w k).map Prod.fst).Sublist (w.map Prod.fst) := by
  induction w with
  | nil => simp [eraseW]
  | cons p rest ih =>
    by_cases hp : p.1 = k
    · simp only [eraseW, hp, if_true, List.map_cons]
      exact List.sublist_cons_self _ _
    · simp only [eraseW, hp, if_false, List.map_cons]
      exact ih.cons₂ p.1

theorem keysNodup_eraseW (w : Words) (k : String) (h : keysNodup w) :
    keysNodup (eraseW w k) :=
  (keys_eraseW_sublist w k).nodup h

theorem lookup_append_single (w : Words) (k : String) (rs : List WordStatus)
    (hk : lookup w k = none) (a : String) :
    lookup (w ++ [(k, rs)]) a = if a = k then some rs else lookup w a := by
  induction w with
  | nil => simp [lookup, eq_comm]
  | cons p rest ih =>
    by_cases hp : p.1 = k
    · simp [lookup, hp] at hk
    · simp only [lookup, hp, if_false] at hk
      by_cases hpa : p.1 = a
      · have : ¬ a = k := fun he => hp (hpa.trans he)
        simp [lookup, hpa, this]
      · simp only [List.cons_append, lookup, hpa, if_false]
        exact ih hk

theorem lookup_pushRecords (w : Words) (k : String) (rs : List WordStatus) (a : String) :
    lookup (pushRecords w k rs) a =
      if a = k then some ((lookup w k).getD [] ++ rs) else lookup w a := by
  unfold pushRecords
  cases hk : lookup w k with
  | none =>
    rw [lookup_append_single w k rs hk a]
    by_cases ha : a = k
    · simp [ha, hk]
    · simp [ha]
  | some l =>
    by_cases ha : a = k
    · subst ha
      simp [lookup_insertW_self, hk]
    · simp [ha, lookup_insertW_ne _ _ _ _ ha]

theorem keysNodup_pushRecords (w : Words) (k : String) (rs : List WordStatus)
    (h : keysNodup w) : keysNodup (pushRecords w k rs) := by
  unfold pushRecords
  cases hk : lookup w k with
  | none =>
    have hnm : k ∉ w.map Prod.fst := by
      intro hm
      rcases exists_lookup_of_mem_keys w k hm with ⟨l, hl⟩
      rw [hl] at hk
      cases hk
    unfold keysNodup at h ⊢
    rw [List.map_append]
    exact List.Nodup.append h (List.nodup_singleton k)
      (by intro x hx hxk; simp at hxk; subst hxk; exact hnm hx)
  | some l => exact keysNodup_insertW w k _ h

end Words

/-- `Rel s a b`: some record stored under `a` points at `b`. -/
def Rel (s : Words) (a b : String) : Prop :=
  ∃ l, Words.lookup s a = some l ∧ pointsBack l b = true

/-- The symmetry invariant as a proposition: the pointing relation is
symmetric. -/
def SymmetricP (s : Words) : Prop := ∀ a b, Rel s a b → Rel s b a

theorem pointsBack_iff (l : List WordStatus) (b : String) :
    pointsBack l b = true ↔ ∃ r ∈ l, WordStatus.translation r = some b := by
  unfold pointsBack
  rw [List.any_eq_true]
  constructor
  · rintro ⟨r, hr, he⟩
    exact ⟨r, hr, by simpa using he⟩
  · rintro ⟨r, hr, he⟩
    exact ⟨r, hr, by simpa using he⟩

theorem pointsBack_append (l1 l2 : List WordStatus) (b : String) :
    pointsBack (l1 ++ l2) b = (pointsBack l1 b || pointsBack l2 b) := by
  simp [pointsBack]

theorem mem_of_lookup_some (s : Words) (k : String) (l : List WordStatus)
    (h : Words.lookup s k = some l) : (k, l) ∈ s := by
  induction s with
  | nil => simp [Words.lookup] at h
  | cons p rest ih =>
    by_cases hp : p.1 = k
    · simp only [Words.lookup, hp, if_true, Option.some.injEq] at h
      subst h
      subst hp
      simp
    · simp only [Words.lookup, hp, if_false] at h
      simp [ih h]

theorem lookup_of_mem_nodup (s : Words) (k : String) (l : List WordStatus)
    (hn : keysNodup s) (h : (k, l) ∈ s) : Words.lookup s k = some l := by
  induction s with
  | nil => simp at h
  | cons p rest ih =>
    simp only [keysNodup, List.map_cons, List.nodup_cons] at hn
    rcases List.mem_cons.mp h with h | h
    · subst h
      simp [Words.lookup]
    · have hp : ¬ p.1 = k := by
        intro he
        apply hn.1
        rw [he]
        exact List.mem_map.mpr ⟨(k, l), h, rfl⟩
      simp only [Words.lookup, hp, if_false]
      exact ih hn.2 h

theorem not_rel_of_lookup_none (s : Words) (a b : String)
    (h : Words.lookup s a = none) : ¬ Rel s a b := by
  rintro ⟨l, hl, _⟩
  rw [h] at hl
  cases hl

/-- Executable `symmetric` agrees with the relational symmetry property on
key-unique stores. -/
theorem symmetric_iff_symmetricP (s : Words) (h : keysNodup s) :
    symmetric s = true ↔ SymmetricP s := by
  constructor
  · intro hs a b hab
    rcases hab with ⟨l, hl, hpb⟩
    rcases (pointsBack_iff l b).mp hpb with ⟨r, hr, ht⟩
    have hmem := mem_of_lookup_some s a l hl
    rw [symmetric, List.all_eq_true] at hs
    have h1 := hs (a, l) hmem
    rw [List.all_eq_true] at h1
    have h2 := h1 r hr
    rw [ht] at h2
    have h3 : (Option.map (fun l1 => pointsBack l1 a) (Words.lookup s b)).getD false = true := h2
    cases hlookup : Words.lookup s b with
    | none =>
      rw [hlookup] at h3
      cases h3
    | some l' =>
      rw [hlookup] at h3
      exact ⟨l', hlookup, h3⟩
  · intro hp
    rw [symmetric, List.all_eq_true]
    intro q hq
    rw [List.all_eq_true]
    intro r hr
    cases htr : r.translation with
    | none => simp
    | some t =>
      have hlk : Words.lookup s q.1 = some q.2 := lookup_of_mem_nodup s q.1 q.2 h (by
        rcases q with ⟨q1, q2⟩
        exact hq)
      have hrel : Rel s q.1 t := ⟨q.2, hlk, (pointsBack_iff _ _).mpr ⟨r, hr, htr⟩⟩
      rcases hp _ _ hrel with ⟨l', hl', hpb⟩
      simp [hl', hpb]

theorem rel_pushRecords (w : Words) (k : String) (rs : List WordStatus) (a b : String) :
    Rel (Words.pushRecords w k rs) a b ↔
      Rel w a b ∨ (a = k ∧ ∃ r ∈ rs, WordStatus.translation r = some b) := by
  unfold Rel
  rw [Words.lookup_pushRecords]
  by_cases ha : a = k
  · subst ha
    rw [if_pos rfl]
    constructor
    · rintro ⟨l, hl, hpb⟩
      cases hl
      rw [pointsBack_append, Bool.or_eq_true] at hpb
      rcases hpb with hpb | hpb
      · left
        cases hlk : Words.lookup w a with
        | none =>
          rw [hlk] at hpb
          cases hpb
        | some l0 =>
          rw [hlk] at hpb
          exact ⟨l0, rfl, hpb⟩
      · exact Or.inr ⟨rfl, (pointsBack_iff _ _).mp hpb⟩
    · rintro (⟨l, hl, hpb⟩ | ⟨_, hex⟩)
      · refine ⟨_, rfl, ?_⟩
        rw [pointsBack_append, hl]
        simp [hpb]
      · refine ⟨_, rfl, ?_⟩
        rw [pointsBack_append]
        simp [(pointsBack_iff _ _).mpr hex]
  · simp [ha]

theorem keysNodup_foldl_push (ts : List String) (w : Words) (r0 : WordStatus)
    (h : keysNodup w) :
    keysNodup (ts.foldl (fun acc t => Words.pushRecords acc t [r0]) w) := by
  induction ts generalizing w with
  | nil => exact h
  | cons t ts ih => exact ih _ (Words.keysNodup_pushRecords w t [r0] h)

theorem rel_foldl_push_mirror (ts : List String) (w : Words) (m : WordStatus)
    (word : String) (htr : WordStatus.translation m = some word) (a b : String) :
    Rel (ts.foldl (fun acc t => Words.pushRecords acc t [m]) w) a b ↔
      Rel w a b ∨ (a ∈ ts ∧ b = word) := by
  induction ts generalizing w with
  | nil => simp
  | cons t ts ih =>
    rw [List.foldl_cons, ih, rel_pushRecords]
    have hone : (∃ r ∈ [m], WordStatus.translation r = some b) ↔ b = word := by
      simp [htr, eq_comm]
    rw [hone]
    simp only [List.mem_cons]
    tauto

theorem keysNodup_add_word (s : Words) (word : String) (info : WordsToAdd) (today : Day)
    (ds : DayStatistics) (h : keysNodup s) :
    keysNodup (Words.add_word s word info today ds).1 := by
  cases info with
  | KnowPreviously => exact Words.keysNodup_pushRecords _ _ _ h
  | TrashWord => exact Words.keysNodup_pushRecords _ _ _ h
  | ToLearn learned translations =>
    exact keysNodup_foldl_push _ _ _
      (keysNodup_foldl_push _ _ _ (Words.keysNodup_pushRecords _ _ _ h))

theorem symmetricP_add_word (s : Words) (word : String) (info : WordsToAdd) (today : Day)
    (ds : DayStatistics) (hs : SymmetricP s) :
    SymmetricP (Words.add_word s word info today ds).1 := by
  cases info with
  | KnowPreviously =>
    intro a b h
    simp only [Words.add_word] at h ⊢
    rw [rel_pushRecords] at h ⊢
    rcases h with h | ⟨_, r, hr, htr⟩
    · exact Or.inl (hs a b h)
    · simp at hr
      subst hr
      cases htr
  | TrashWord =>
    intro a b h
    simp only [Words.add_word] at h ⊢
    rw [rel_pushRecords] at h ⊢
    rcases h with h | ⟨_, r, hr, htr⟩
    · exact Or.inl (hs a b h)
    · simp at hr
      subst hr
      cases htr
  | ToLearn learned translations =>
    intro a b h
    simp only [Words.add_word] at h ⊢
    rw [rel_foldl_push_mirror _ _ (WordStatus.Learned word ⟨0, 0⟩) word rfl,
      rel_foldl_push_mirror _ _ (WordStatus.ToLearn word today 0 0 ⟨0, 0⟩) word rfl,
      rel_pushRecords] at h
    rw [rel_foldl_push_mirror _ _ (WordStatus.Learned word ⟨0, 0⟩) word rfl,
      rel_foldl_push_mirror _ _ (WordStatus.ToLearn word today 0 0 ⟨0, 0⟩) word rfl,
      rel_pushRecords]
    have hfwd : ∀ x : String, (∃ r ∈ translations.map (fun t => WordStatus.ToLearn t today 0 0 ⟨0, 0⟩)
          ++ learned.map (fun t => WordStatus.Learned t ⟨0, 0⟩),
        WordStatus.translation r = some x) ↔ x ∈ translations ∨ x ∈ learned := by
      intro x
      simp only [List.mem_append, List.mem_map]
      constructor
      · rintro ⟨r, hr | hr, htr⟩
        · rcases hr with ⟨t, ht, rfl⟩
          simp only [WordStatus.translation, Option.some.injEq] at htr
          exact Or.inl (htr ▸ ht)
        · rcases hr with ⟨t, ht, rfl⟩
          simp only [WordStatus.translation, Option.some.injEq] at htr
          exact Or.inr (htr ▸ ht)
      · rintro (hx | hx)
        · exact ⟨WordStatus.ToLearn x today 0 0 ⟨0, 0⟩, Or.inl ⟨x, hx, rfl⟩, rfl⟩
        · exact ⟨WordStatus.Learned x ⟨0, 0⟩, Or.inr ⟨x, hx, rfl⟩, rfl⟩
    rw [hfwd b] at h
    rw [hfwd a]
    rcases h with ((h | ⟨rfl, hb⟩) | ⟨ha, rfl⟩) | ⟨ha, rfl⟩
    · exact Or.inl (Or.inl (Or.inl (hs a b h)))
    · rcases hb with hb | hb
      · exact Or.inl (Or.inr ⟨hb, rfl⟩)
      · exact Or.inr ⟨hb, rfl⟩
    · exact Or.inl (Or.inl (Or.inr ⟨rfl, Or.inl ha⟩))
    · exact Or.inl (Or.inl (Or.inr ⟨rfl, Or.inr ha⟩))

theorem pointsBack_filter_not_word (l : List WordStatus) (word b : String) :
    pointsBack (l.filter
      (fun r => ((r.translation).map (fun x => decide (x ≠ word))).getD true)) b = true ↔
    pointsBack l b = true ∧ b ≠ word := by
  rw [pointsBack_iff, pointsBack_iff]
  constructor
  · rintro ⟨r, hr, htr⟩
    rw [List.mem_filter] at hr
    have hpred := hr.2
    rw [htr] at hpred
    simp only [Option.map_some', Option.getD_some, decide_eq_true_eq] at hpred
    exact ⟨⟨r, hr.1, htr⟩, hpred⟩
  · rintro ⟨⟨r, hr, htr⟩, hbw⟩
    refine ⟨r, List.mem_filter.mpr ⟨hr, ?_⟩, htr⟩
    rw [htr]
    simpa using hbw

theorem removeStep_eq (word : String) (acc : Words) (t : String)
    (hword : Words.lookup acc word = none) :
    Words.removeStep word acc t =
      match Words.lookup acc t with
      | some l => Words.insertW acc t (l.filter
          (fun r => ((r.translation).map (fun x => decide (x ≠ word))).getD true))
      | none => acc := by
  unfold Words.removeStep
  cases hlt : Words.lookup acc t with
  | none => simp [hword]
  | some l =>
    have htw : word ≠ t := by
      rintro rfl
      rw [hword] at hlt
      cases hlt
    have h1 : Words.lookup (Words.insertW acc t (l.filter
        (fun r => ((r.translation).map (fun x => decide (x ≠ word))).getD true)))
        word = none := by
      rw [Words.lookup_insertW_ne _ _ _ _ htw]
      exact hword
    simp [h1]
    intro hc
    exfalso
    simp only [ne_eq, decide_not] at h1
    rw [h1] at hc
    simp at hc

theorem lookup_removeStep_word (word : String) (acc : Words) (t : String)
    (hword : Words.lookup acc word = none) :
    Words.lookup (Words.removeStep word acc t) word = none := by
  rw [removeStep_eq word acc t hword]
  cases hlt : Words.lookup acc t with
  | none => exact hword
  | some l =>
    have htw : word ≠ t := by
      rintro rfl
      rw [hword] at hlt
      cases hlt
    rw [Words.lookup_insertW_ne _ _ _ _ htw]
    exact hword

theorem keysNodup_removeStep (word : String) (acc : Words) (t : String)
    (hword : Words.lookup acc word = none) (h : keysNodup acc) :
    keysNodup (Words.removeStep word acc t) := by
  rw [removeStep_eq word acc t hword]
  cases Words.lookup acc t with
  | none => exact h
  | some l => exact Words.keysNodup_insertW _ _ _ h

theorem rel_removeStep (word : String) (acc : Words) (t : String) (a b : String)
    (hword : Words.lookup acc word = none) :
    Rel (Words.removeStep word acc t) a b ↔ Rel acc a b ∧ (a = t → b ≠ word) := by
  rw [removeStep_eq word acc t hword]
  cases hlt : Words.lookup acc t with
  | none =>
    constructor
    · intro h
      refine ⟨h, ?_⟩
      rintro rfl
      rcases h with ⟨l, hl, _⟩
      rw [hlt] at hl
      cases hl
    · exact fun h => h.1
  | some l =>
    unfold Rel
    by_cases hat : a = t
    · subst hat
      rw [Words.lookup_insertW_self, hlt]
      constructor
      · rintro ⟨l', hl', hpb⟩
        cases hl'
        rw [pointsBack_filter_not_word] at hpb
        exact ⟨⟨l, rfl, hpb.1⟩, fun _ => hpb.2⟩
      · rintro ⟨⟨l', hl', hpb⟩, himp⟩
        cases hl'
        exact ⟨_, rfl, (pointsBack_filter_not_word _ _ _).mpr ⟨hpb, himp rfl⟩⟩
    · rw [Words.lookup_insertW_ne _ _ _ _ hat]
      constructor
      · exact fun h => ⟨h, fun hat' => absurd hat' hat⟩
      · exact fun h => h.1

theorem rel_remove_foldl (ts : List String) (base : Words) (word : String)
    (hword : Words.lookup base word = none) (a b : String) :
    Rel (ts.foldl (Words.removeStep word) base) a b ↔
      Rel base a b ∧ (a ∈ ts → b ≠ word) := by
  induction ts generalizing base with
  | nil => simp
  | cons t ts ih =>
    rw [List.foldl_cons, ih _ (lookup_removeStep_word word base t hword),
      rel_removeStep word base t a b hword]

    simp only [List.mem_cons]
    constructor
    · rintro ⟨⟨h1, h2⟩, h3⟩
      exact ⟨h1, fun hm => hm.elim h2 h3⟩
    · rintro ⟨h1, h2⟩
      exact ⟨⟨h1, fun he => h2 (Or.inl he)⟩, fun hm => h2 (Or.inr hm)⟩

theorem keysNodup_remove_foldl (ts : List String) (base : Words) (word : String)
    (hword : Words.lookup base word = none) (h : keysNodup base) :
    keysNodup (ts.foldl (Words.removeStep word) base) := by
  induction ts generalizing base with
  | nil => exact h
  | cons t ts ih =>
    exact ih _ (lookup_removeStep_word word base t hword)
      (keysNodup_removeStep word base t hword h)

theorem keysNodup_remove_word (s : Words) (word : String) (s' : Words)
    (hn : keysNodup s) (h : Words.remove_word s word = some s') : keysNodup s' := by
  unfold Words.remove_word at h
  cases hrec : Words.lookup s word with
  | none =>
    rw [hrec] at h
    cases h
  | some recs =>
    rw [hrec] at h
    cases h
    exact keysNodup_remove_foldl _ _ _ (Words.lookup_eraseW_self s word hn)
      (Words.keysNodup_eraseW s word hn)

theorem symmetricP_remove_word (s : Words) (word : String) (s' : Words)
    (hn : keysNodup s) (hs : SymmetricP s)
    (h : Words.remove_word s word = some s') : SymmetricP s' := by
  unfold Words.remove_word at h
  cases hrec : Words.lookup s word with
  | none =>
    rw [hrec] at h
    cases h
  | some recs =>
    rw [hrec] at h
    cases h
    have hword : Words.lookup (Words.eraseW s word) word = none :=
      Words.lookup_eraseW_self s word hn
    have hts : ∀ x, x ∈ recs.filterMap WordStatus.translation ↔ Rel s word x := by
      intro x
      rw [List.mem_filterMap]
      constructor
      · rintro ⟨r, hr, htr⟩
        exact ⟨recs, hrec, (pointsBack_iff _ _).mpr ⟨r, hr, htr⟩⟩
      · rintro ⟨l, hl, hpb⟩
        rw [hrec] at hl
        cases hl
        rcases (pointsBack_iff _ _).mp hpb with ⟨r, hr, htr⟩
        exact ⟨r, hr, htr⟩
    intro a b hab
    rw [rel_remove_foldl _ _ _ hword] at hab ⊢
    obtain ⟨hb, himp⟩ := hab
    have hane : a ≠ word := by
      rintro rfl
      exact not_rel_of_lookup_none _ _ b hword hb
    have hsab : Rel s a b := by
      rcases hb with ⟨l, hl, hpb⟩
      rw [Words.lookup_eraseW_ne s word a hane] at hl
      exact ⟨l, hl, hpb⟩
    have hbne : b ≠ word := by
      intro hbw
      exact himp ((hts a).mpr (hs a word (hbw ▸ hsab))) hbw
    have hsba := hs a b hsab
    refine ⟨?_, fun _ => hane⟩
    rcases hsba with ⟨l, hl, hpb⟩
    exact ⟨l, by rwa [Words.lookup_eraseW_ne s word b hbne], hpb⟩

theorem translation_renameTarget (r : WordStatus) (word nw : String) :
    WordStatus.translation (Words.renameTarget r word nw) =
      (WordStatus.translation r).map (fun tr => if tr = word then nw else tr) := by
  cases r <;> rfl

theorem pointsBack_map_rename (l : List WordStatus) (word nw b : String) :
    pointsBack (l.map (fun r => Words.renameTarget r word nw)) b = true ↔
      ((b = nw ∧ pointsBack l word = true) ∨ (b ≠ word ∧ pointsBack l b = true)) := by
  rw [pointsBack_iff]
  constructor
  · rintro ⟨r', hr', htr'⟩
    rcases List.mem_map.mp hr' with ⟨r, hr, rfl⟩
    rw [translation_renameTarget] at htr'
    cases htr0 : WordStatus.translation r with
    | none =>
      rw [htr0] at htr'
      cases htr'
    | some t =>
      rw [htr0] at htr'
      simp only [Option.map_some', Option.some.injEq] at htr'
      by_cases htw : t = word
      · rw [if_pos htw] at htr'
        exact Or.inl ⟨htr'.symm, (pointsBack_iff _ _).mpr ⟨r, hr, htw ▸ htr0⟩⟩
      · rw [if_neg htw] at htr'
        subst htr'
        exact Or.inr ⟨htw, (pointsBack_iff _ _).mpr ⟨r, hr, htr0⟩⟩
  · rintro (⟨rfl, hpb⟩ | ⟨hbw, hpb⟩)
    · rcases (pointsBack_iff _ _).mp hpb with ⟨r, hr, htr⟩
      refine ⟨Words.renameTarget r word b, List.mem_map.mpr ⟨r, hr, rfl⟩, ?_⟩
      rw [translation_renameTarget, htr]
      simp
    · rcases (pointsBack_iff _ _).mp hpb with ⟨r, hr, htr⟩
      refine ⟨Words.renameTarget r word nw, List.mem_map.mpr ⟨r, hr, rfl⟩, ?_⟩
      rw [translation_renameTarget, htr]
      simp [hbw]

theorem keysNodup_renameStep (word nw : String) (acc : Words) (t : String)
    (h : keysNodup acc) : keysNodup (Words.renameStep word nw acc t) := by
  unfold Words.renameStep
  split
  · exact Words.keysNodup_insertW _ _ _ h
  · exact h

theorem rel_renameStep (word nw : String) (acc : Words) (t : String) (a b : String) :
    Rel (Words.renameStep word nw acc t) a b ↔
      (if a = t then ((b = nw ∧ Rel acc a word) ∨ (b ≠ word ∧ Rel acc a b))
       else Rel acc a b) := by
  unfold Words.renameStep
  cases hlt : Words.lookup acc t with
  | none =>
    by_cases hat : a = t
    · subst hat
      rw [if_pos rfl]
      constructor
      · rintro ⟨l, hl, hpb⟩
        rw [hlt] at hl
        cases hl
      · rintro (⟨_, l, hl, _⟩ | ⟨_, l, hl, _⟩) <;>
          (rw [hlt] at hl; cases hl)
    · rw [if_neg hat]
  | some l =>
    by_cases hat : a = t
    · subst hat
      rw [if_pos rfl]
      unfold Rel
      rw [Words.lookup_insertW_self, hlt]
      constructor
      · rintro ⟨l', hl', hpb⟩
        cases hl'
        rcases (pointsBack_map_rename l word nw b).mp hpb with ⟨rfl, hpb'⟩ | ⟨hbw, hpb'⟩
        · exact Or.inl ⟨rfl, l, rfl, hpb'⟩
        · exact Or.inr ⟨hbw, l, rfl, hpb'⟩
      · rintro (⟨hbnw, l', hl', hpb'⟩ | ⟨hbw, l', hl', hpb'⟩)
        · cases hl'
          exact ⟨_, rfl, (pointsBack_map_rename _ _ _ _).mpr (Or.inl ⟨hbnw, hpb'⟩)⟩
        · cases hl'
          exact ⟨_, rfl, (pointsBack_map_rename _ _ _ _).mpr (Or.inr ⟨hbw, hpb'⟩)⟩
    · rw [if_neg hat]
      unfold Rel
      rw [Words.lookup_insertW_ne _ _ _ _ hat]

theorem keysNodup_rename_foldl (ts : List String) (base : Words) (word nw : String)
    (h : keysNodup base) :
    keysNodup (ts.foldl (Words.renameStep word nw) base) := by
  induction ts generalizing base with
  | nil => exact h
  | cons t ts ih => exact ih _ (keysNodup_renameStep word nw base t h)

theorem rel_rename_foldl (ts : List String) (base : Words) (word nw : String)
    (hne : word ≠ nw) (a b : String) :
    Rel (ts.foldl (Words.renameStep word nw) base) a b ↔
      (if a ∈ ts then ((b = nw ∧ Rel base a word) ∨ (b ≠ word ∧ Rel base a b))
       else Rel base a b) := by
  induction ts generalizing base with
  | nil => simp
  | cons t ts ih =>
    rw [List.foldl_cons, ih]
    simp only [rel_renameStep word nw base t, List.mem_cons]
    split_ifs <;> first
    | tauto
    | (constructor
       · rintro (⟨rfl, h1⟩ | ⟨hbw, h1⟩) <;> tauto
       · rintro (⟨rfl, h1⟩ | ⟨hbw, h1⟩) <;> tauto)

theorem keysNodup_rename_word (s : Words) (word nw : String) (s' : Words)
    (hn : keysNodup s) (h : Words.rename_word s word nw = some s') : keysNodup s' := by
  unfold Words.rename_word at h
  cases hrec : Words.lookup s word with
  | none =>
    rw [hrec] at h
    cases h
  | some status =>
    rw [hrec] at h
    cases h
    exact keysNodup_rename_foldl _ _ _ _
      (Words.keysNodup_insertW _ _ _ (Words.keysNodup_eraseW s word hn))

theorem symmetricP_rename_word (s : Words) (word nw : String) (s' : Words)
    (hn : keysNodup s) (hs : SymmetricP s)
    (hnew : Words.lookup s nw = none)
    (hself : ∀ l, Words.lookup s word = some l → pointsBack l word = false)
    (h : Words.rename_word s word nw = some s') : SymmetricP s' := by
  unfold Words.rename_word at h
  cases hrec : Words.lookup s word with
  | none =>
    rw [hrec] at h
    cases h
  | some status =>
    rw [hrec] at h
    cases h
    have hne : word ≠ nw := by
      rintro rfl
      rw [hrec] at hnew
      cases hnew
    have hbase_nw : ∀ y, Rel (Words.insertW (Words.eraseW s word) nw status) nw y ↔
        Rel s word y := by
      intro y
      unfold Rel
      rw [Words.lookup_insertW_self, hrec]
    have hbase_word : ∀ y, ¬ Rel (Words.insertW (Words.eraseW s word) nw status) word y := by
      intro y
      rintro ⟨l, hl, hpb⟩
      rw [Words.lookup_insertW_ne _ _ _ _ hne,
        Words.lookup_eraseW_self s word hn] at hl
      cases hl
    have hbase_other : ∀ x y, x ≠ nw → x ≠ word →
        (Rel (Words.insertW (Words.eraseW s word) nw status) x y ↔ Rel s x y) := by
      intro x y hx1 hx2
      unfold Rel
      rw [Words.lookup_insertW_ne _ _ _ _ hx1, Words.lookup_eraseW_ne _ _ _ hx2]
    have hts : ∀ x, x ∈ status.filterMap WordStatus.translation ↔ Rel s word x := by
      intro x
      rw [List.mem_filterMap]
      constructor
      · rintro ⟨r, hr, htr⟩
        exact ⟨status, hrec, (pointsBack_iff _ _).mpr ⟨r, hr, htr⟩⟩
      · rintro ⟨l, hl, hpb⟩
        rw [hrec] at hl
        cases hl
        rcases (pointsBack_iff _ _).mp hpb with ⟨r, hr, htr⟩
        exact ⟨r, hr, htr⟩
    have hwts : word ∉ status.filterMap WordStatus.translation := by
      intro hmem
      rcases (hts word).mp hmem with ⟨l, hl, hpb⟩
      rw [hrec] at hl
      cases hl
      rw [hself status hrec] at hpb
      cases hpb
    have hnwts : nw ∉ status.filterMap WordStatus.translation := by
      intro hmem
      rcases hs word nw ((hts nw).mp hmem) with ⟨l, hl, _⟩
      rw [hnew] at hl
      cases hl
    have hnorel_nw : ∀ y, ¬ Rel s nw y :=
      fun y => not_rel_of_lookup_none s nw y hnew
    intro a b hab
    rw [rel_rename_foldl _ _ _ _ hne] at hab ⊢
    by_cases hats : a ∈ status.filterMap WordStatus.translation
    · rw [if_pos hats] at hab
      have hrelwa : Rel s word a := (hts a).mp hats
      have hanw : a ≠ nw := fun he => hnwts (he ▸ hats)
      have haw : a ≠ word := fun he => hwts (he ▸ hats)
      rcases hab with ⟨rfl, hrel⟩ | ⟨hbw, hrel⟩
      · -- b = nw: the mirror lives under nw, which is not in the fold list
        rw [if_neg hnwts, hbase_nw]
        exact hrelwa
      · rw [hbase_other a b hanw haw] at hrel
        have hsba : Rel s b a := hs a b hrel
        have hbnw : b ≠ nw := by
          intro hbe
          exact hnorel_nw a (hbe ▸ hsba)
        by_cases hbts : b ∈ status.filterMap WordStatus.translation
        · rw [if_pos hbts]
          exact Or.inr ⟨haw, (hbase_other b a hbnw hbw).mpr hsba⟩
        · rw [if_neg hbts]
          exact (hbase_other b a hbnw hbw).mpr hsba
    · rw [if_neg hats] at hab
      by_cases hanw : a = nw
      · rw [hanw, hbase_nw] at hab
        have hbts : b ∈ status.filterMap WordStatus.translation := (hts b).mpr hab
        have hbw : b ≠ word := fun he => hwts (he ▸ hbts)
        have hbnw : b ≠ nw := fun he => hnwts (he ▸ hbts)
        rw [if_pos hbts]
        exact Or.inl ⟨hanw, (hbase_other b word hbnw hbw).mpr (hs word b hab)⟩
      · by_cases haw : a = word
        · subst haw
          exact absurd hab (hbase_word b)
        · rw [hbase_other a b hanw haw] at hab
          have hsba : Rel s b a := hs a b hab
          have hbw : b ≠ word := by
            intro hbw
            exact hats ((hts a).mpr (hs a word (hbw ▸ hab)))
          have hbnw : b ≠ nw := by
            intro hbe
            exact hnorel_nw a (hbe ▸ hsba)
          by_cases hbts : b ∈ status.filterMap WordStatus.translation
          · rw [if_pos hbts]
            exact Or.inr ⟨haw, (hbase_other b a hbnw hbw).mpr hsba⟩
          · rw [if_neg hbts]
            exact (hbase_other b a hbnw hbw).mpr hsba

/-- **C3 (amended)**: on a key-unique symmetric store, `add_word` and
`remove_word` preserve the symmetry invariant, and `rename_word` preserves
it *provided* the new name is not already a key of the store and the
renamed word has no record pointing at itself.  Without those two extra
conditions rename breaks symmetry (see the counterexample):
`BTreeMap::insert` silently overwrites the existing list of `new_word`,
and a self-referential record's mirror is rewritten under a key that no
longer exists. -/
theorem C3_amended (s : Words) (hn : keysNodup s) (hs : symmetric s = true) :
    (∀ word info today ds, symmetric (Words.add_word s word info today ds).1 = true) ∧
    (∀ word s', Words.remove_word s word = some s' → symmetric s' = true) ∧
    (∀ word new_word s', Words.lookup s new_word = none →
      (∀ l, Words.lookup s word = some l → pointsBack l word = false) →
      Words.rename_word s word new_word = some s' → symmetric s' = true) := by
  have hsp : SymmetricP s := (symmetric_iff_symmetricP s hn).mp hs
  refine ⟨?_, ?_, ?_⟩
  · intro word info today ds
    exact (symmetric_iff_symmetricP _ (keysNodup_add_word s word info today ds hn)).mpr
      (symmetricP_add_word s word info today ds hsp)
  · intro word s' h
    exact (symmetric_iff_symmetricP _ (keysNodup_remove_word s word s' hn h)).mpr
      (symmetricP_remove_word s word s' hn hsp h)
  · intro word new_word s' hnew hself h
    exact (symmetric_iff_symmetricP _ (keysNodup_rename_word s word new_word s' hn h)).mpr
      (symmetricP_rename_word s word new_word s' hn hsp hnew hself h)

/-- **C3 counterexample**: renaming "c" to the *already present* word "a"
in the symmetric store {a↔b, c↔d} overwrites a's record list, leaving b's
record pointing at "a" with no mirror — a single rename on a symmetric
store yields an asymmetric one, refuting the claim as stated. -/
theorem C3_claim_counterexample :
    symmetric [("a", [WordStatus.ToLearn "b" 0 0 0 ⟨0, 0⟩]),
      ("b", [WordStatus.ToLearn "a" 0 0 0 ⟨0, 0⟩]),
      ("c", [WordStatus.ToLearn "d" 0 0 0 ⟨0, 0⟩]),
      ("d", [WordStatus.ToLearn "c" 0 0 0 ⟨0, 0⟩])] = true ∧
    Words.rename_word [("a", [WordStatus.ToLearn "b" 0 0 0 ⟨0, 0⟩]),
      ("b", [WordStatus.ToLearn "a" 0 0 0 ⟨0, 0⟩]),
      ("c", [WordStatus.ToLearn "d" 0 0 0 ⟨0, 0⟩]),
      ("d", [WordStatus.ToLearn "c" 0 0 0 ⟨0, 0⟩])] "c" "a" =
      some [("a", [WordStatus.ToLearn "d" 0 0 0 ⟨0, 0⟩]),
        ("b", [WordStatus.ToLearn "a" 0 0 0 ⟨0, 0⟩]),
        ("d", [WordStatus.ToLearn "a" 0 0 0 ⟨0, 0⟩])] ∧
    symmetric [("a", [WordStatus.ToLearn "d" 0 0 0 ⟨0, 0⟩]),
      ("b", [WordStatus.ToLearn "a" 0 0 0 ⟨0, 0⟩]),
      ("d", [WordStatus.ToLearn "a" 0 0 0 ⟨0, 0⟩])] = false := by
  refine ⟨by decide, by decide, by decide⟩

/-- Witness for C3 (amended) on the concrete symmetric store {a↔b}: an
add, a remove and a legitimate rename all keep `symmetric` true. -/
theorem C3_amended_witness :
    symmetric (Words.add_word [("a", [WordStatus.ToLearn "b" 0 0 0 ⟨0, 0⟩]),
      ("b", [WordStatus.ToLearn "a" 0 0 0 ⟨0, 0⟩])] "c"
      (WordsToAdd.ToLearn [] ["d"]) 0 ⟨⟨0, 0⟩, 0⟩).1 = true ∧
    symmetric [("b", ([] : List WordStatus))] = true ∧
    symmetric [("b", [WordStatus.ToLearn "c" 0 0 0 ⟨0, 0⟩]),
      ("c", [WordStatus.ToLearn "b" 0 0 0 ⟨0, 0⟩])] = true := by
  refine ⟨?_, ?_, ?_⟩
  · exact (C3_amended [("a", [WordStatus.ToLearn "b" 0 0 0 ⟨0, 0⟩]),
      ("b", [WordStatus.ToLearn "a" 0 0 0 ⟨0, 0⟩])] (by unfold keysNodup; decide) (by decide)).1
      "c" (WordsToAdd.ToLearn [] ["d"]) 0 ⟨⟨0, 0⟩, 0⟩
  · exact (C3_amended [("a", [WordStatus.ToLearn "b" 0 0 0 ⟨0, 0⟩]),
      ("b", [WordStatus.ToLearn "a" 0 0 0 ⟨0, 0⟩])] (by unfold keysNodup; decide) (by decide)).2.1
      "a" [("b", [])] (by decide)
  · refine (C3_amended [("a", [WordStatus.ToLearn "b" 0 0 0 ⟨0, 0⟩]),
      ("b", [WordStatus.ToLearn "a" 0 0 0 ⟨0, 0⟩])] (by unfold keysNodup; decide) (by decide)).2.2
      "a" "c" _ (by decide) ?_ (by decide)
    intro l hl
    rw [show Words.lookup [("a", [WordStatus.ToLearn "b" 0 0 0 ⟨0, 0⟩]),
      ("b", [WordStatus.ToLearn "a" 0 0 0 ⟨0, 0⟩])] "a"
        = some [WordStatus.ToLearn "b" 0 0 0 ⟨0, 0⟩] from by decide] at hl
    cases hl
    decide

/-- The per-record overdue-days value described by the specification
("days elapsed beyond the rung's wait threshold, clamped to ≥ 0" for a due
record, `0` otherwise); written from the spec's words, to be compared with
the source's `overdue_days`. -/
def spec_overdue_days (s : WordStatus) (today : Day) (type_count : List LearnType) : Nat :=
  match s with
  | .ToLearn _ last_learn current_level _ _ =>
    match type_count[current_level]? with
    | some learn =>
      if learn.can_learn_today last_learn today then today - (last_learn + learn.wait_days)
      else 0
    | none => 0
  | _ => 0

/-- The word-level overdue-days maximum described by the specification. -/
def spec_max_overdue_days (w : Words) (word : String) (today : Day)
    (type_count : List LearnType) : Nat :=
  (((Words.lookup w word).getD []).map
    (fun r => spec_overdue_days r today type_count)).foldl max 0

/-- **C4 (code bug)**: `overdue_days` computes the *time remaining until*
the due date instead of the time elapsed past it (`if today > date_to_learn
{ 0 } else { date_to_learn - today }` — the branches are inverted).  A
record practiced `wait_days + 4` days ago yields `0` where the spec says
`4`, and a record 3 days *short* of its wait yields `3` where the spec
says `0`, so the "most overdue first" ranking built on this value orders
words by the opposite of the documented key. -/
theorem C4_overdue_days_inverted :
    Words.max_overdue_days [("w", [WordStatus.ToLearn "t" 0 0 0 ⟨0, 0⟩])] "w" 5
        [LearnType.shows 1 2] = some 0 ∧
    spec_max_overdue_days [("w", [WordStatus.ToLearn "t" 0 0 0 ⟨0, 0⟩])] "w" 5
        [LearnType.shows 1 2] = 4 ∧
    WordStatus.overdue_days (.ToLearn "t" 0 0 0 ⟨0, 0⟩) 2 [LearnType.shows 5 2] = some 3 ∧
    spec_overdue_days (.ToLearn "t" 0 0 0 ⟨0, 0⟩) 2 [LearnType.shows 5 2] = 0 := by
  refine ⟨by decide, by decide, by decide, by decide⟩

/-- **C5 (code bug)**: the prune check in `remove_word` reads
`self.0.get(word)` — the key removed at the top of the function — instead
of `self.0.get(&translation)`, so it never fires: removing "apple" from the
two-entry symmetric store leaves "yablokoo" present with an *empty* record
list, while the spec (and its test scenario) requires "yablokoo" to be
absent from the store. -/
theorem C5_empty_entry_not_pruned :
    Words.remove_word [("apple", [WordStatus.ToLearn "yablokoo" 0 0 0 ⟨0, 0⟩]),
      ("yablokoo", [WordStatus.ToLearn "apple" 0 0 0 ⟨0, 0⟩])] "apple" =
      some [("yablokoo", [])] ∧
    Words.lookup [("yablokoo", ([] : List WordStatus))] "yablokoo" = some [] := by
  refine ⟨by decide, by decide⟩

theorem registerFirst_no_match (l : List WordStatus) (tr : String) (correct : Bool)
    (today : Day) (ds : DayStatistics) (tc : List LearnType)
    (h : ∀ r ∈ l, r.has_translation tr = false) :
    Words.registerFirst l tr correct today ds tc = some none := by
  induction l with
  | nil => rfl
  | cons r rest ih =>
    have hr : r.has_translation tr = false := h r (List.mem_cons_self r rest)
    simp only [Words.registerFirst, hr, Bool.false_eq_true, if_false]
    rw [ih (fun x hx => h x (List.mem_cons_of_mem r hx))]
    rfl

theorem registerFirst_found (l1 : List WordStatus) (r : WordStatus) (l2 : List WordStatus)
    (tr : String) (correct : Bool) (today : Day) (ds : DayStatistics) (tc : List LearnType)
    (h1 : ∀ x ∈ l1, x.has_translation tr = false) (hr : r.has_translation tr = true) :
    Words.registerFirst (l1 ++ r :: l2) tr correct today ds tc =
      (r.register_attempt correct today ds tc).map
        (fun p => some (l1 ++ p.1 :: l2, p.2)) := by
  induction l1 with
  | nil =>
    simp only [List.nil_append, Words.registerFirst, hr, if_true]
    cases hreg : r.register_attempt correct today ds tc with
    | none => rfl
    | some p => rfl
  | cons x xs ih =>
    have hx : x.has_translation tr = false := h1 x (List.mem_cons_self x xs)
    simp only [List.cons_append, Words.registerFirst, hx, Bool.false_eq_true, if_false,
      List.append_eq]
    rw [ih (fun y hy => h1 y (List.mem_cons_of_mem x hy))]
    cases hreg : r.register_attempt correct today ds tc with
    | none => rfl
    | some p => rfl

/-- **C9 (amended)**: `Words::register_attempt` walks the record list of
`word` and delegates to the *first* record whose translation matches.  A
matched `Learned` record makes the delegated call hit `unreachable!()`
(fatal, `none`), and a matched `ToLearn` record delegates normally — but a
call for which *no* record matches (`KnownPreviously`/`TrashWord` records
never match any translation), or whose word is absent, falls into the
`err!()` macro, which expands to nothing in the source: the call is a
*silent no-op*, not fatal as the claim states. -/
theorem C9_amended (w : Words) (word tr : String) (correct : Bool) (today : Day)
    (ds : DayStatistics) (tc : List LearnType) :
    (Words.lookup w word = none →
      Words.register_attempt w word tr correct today ds tc = some (w, ds)) ∧
    (∀ l, Words.lookup w word = some l → (∀ r ∈ l, r.has_translation tr = false) →
      Words.register_attempt w word tr correct today ds tc = some (w, ds)) ∧
    (∀ l1 r l2, Words.lookup w word = some (l1 ++ r :: l2) →
      (∀ x ∈ l1, x.has_translation tr = false) → r.has_translation tr = true →
      Words.register_attempt w word tr correct today ds tc =
        (r.register_attempt correct today ds tc).map
          (fun p => (Words.insertW w word (l1 ++ p.1 :: l2), p.2))) := by
  refine ⟨?_, ?_, ?_⟩
  · intro h
    simp [Words.register_attempt, h]
  · intro l hl hno
    simp only [Words.register_attempt, hl]
    rw [registerFirst_no_match l tr correct today ds tc hno]
  · intro l1 r l2 hl h1 hr
    simp only [Words.register_attempt, hl]
    rw [registerFirst_found l1 r l2 tr correct today ds tc h1 hr]
    cases hreg : r.register_attempt correct today ds tc with
    | none => rfl
    | some p => rfl

/-- **C9 counterexample**: registering an attempt against word "a" — whose
only record is `KnowPreviously` — with a translation that matches no
record returns normally with the store and statistics unchanged (the
`err!()` macro expands to nothing), instead of being fatal/unreachable as
the claim states. -/
theorem C9_claim_counterexample :
    Words.register_attempt [("a", [WordStatus.KnowPreviously])] "a" "zzz" true 0
        ⟨⟨0, 0⟩, 0⟩ [LearnType.shows 0 2] =
      some ([("a", [WordStatus.KnowPreviously])], ⟨⟨0, 0⟩, 0⟩) := by
  decide

/-- Witness for C9 (amended): an unknown word and an unmatched translation
are silent no-ops, a matched `Learned` record is fatal, a matched `ToLearn`
record delegates (here: an incorrect attempt bumps only the counters). -/
theorem C9_amended_witness :
    Words.register_attempt [("a", [WordStatus.KnowPreviously])] "b" "zzz" true 0
        ⟨⟨0, 0⟩, 0⟩ [] = some ([("a", [WordStatus.KnowPreviously])], ⟨⟨0, 0⟩, 0⟩) ∧
    Words.register_attempt [("a", [WordStatus.KnowPreviously])] "a" "zzz" false 0
        ⟨⟨0, 0⟩, 0⟩ [] = some ([("a", [WordStatus.KnowPreviously])], ⟨⟨0, 0⟩, 0⟩) ∧
    Words.register_attempt [("a", [WordStatus.Learned "b" ⟨0, 0⟩])] "a" "b" true 0
        ⟨⟨0, 0⟩, 0⟩ [] = none ∧
    Words.register_attempt [("a", [WordStatus.ToLearn "b" 0 0 0 ⟨0, 0⟩])] "a" "b" false 0
        ⟨⟨0, 0⟩, 0⟩ [] =
      (WordStatus.register_attempt (WordStatus.ToLearn "b" 0 0 0 ⟨0, 0⟩) false 0
          ⟨⟨0, 0⟩, 0⟩ []).map
        (fun p => (Words.insertW [("a", [WordStatus.ToLearn "b" 0 0 0 ⟨0, 0⟩])] "a"
          ([] ++ p.1 :: []), p.2)) := by
  refine ⟨?_, ?_, ?_, ?_⟩
  · exact (C9_amended [("a", [WordStatus.KnowPreviously])] "b" "zzz" true 0
      ⟨⟨0, 0⟩, 0⟩ []).1 (by decide)
  · refine (C9_amended [("a", [WordStatus.KnowPreviously])] "a" "zzz" false 0
      ⟨⟨0, 0⟩, 0⟩ []).2.1 [WordStatus.KnowPreviously] (by decide) (by decide)
  · exact (C9_amended [("a", [WordStatus.Learned "b" ⟨0, 0⟩])] "a" "b" true 0
      ⟨⟨0, 0⟩, 0⟩ []).2.2 [] (WordStatus.Learned "b" ⟨0, 0⟩) [] (by decide)
      (by intro x hx; cases hx) (by decide)
  · exact (C9_amended [("a", [WordStatus.ToLearn "b" 0 0 0 ⟨0, 0⟩])] "a" "b" false 0
      ⟨⟨0, 0⟩, 0⟩ []).2.2 [] (WordStatus.ToLearn "b" 0 0 0 ⟨0, 0⟩) [] (by decide)
      (by intro x hx; cases hx) (by decide)

/-- `TypedWord` from the session controller in `main.rs`. -/
structure TypedWord where
  correct : Bool
  translation : String
  typed : String
deriving DecidableEq

/-- First pass of the guess check (`main.rs`, `Check` branch): for each
typed entry, if it exactly matches a remaining expected answer, move that
answer from `answers` into `corrects`. -/
def guessPass1 : List String → List String → List String × List String
  | [], answers => ([], answers)
  | t :: rest, answers =>
    if t ∈ answers then
      let p := guessPass1 rest (answers.erase t)
      (t :: p.1, p.2)
    else guessPass1 rest answers

/-- Second pass: each typed entry found in `corrects` consumes its match
and is marked correct; every other typed entry is paired with
`answers.remove(0)` — panicking (modelled `none`) if `answers` is empty —
and marked incorrect. -/
def guessPass2 : List String → List String → List String →
    Option (List TypedWord)
  | [], _, _ => some []
  | t :: rest, corrects, answers =>
    if t ∈ corrects then
      (guessPass2 rest (corrects.erase t) answers).map
        (fun res => ⟨true, t, t⟩ :: res)
    else
      match answers with
      | [] => none
      | a :: answers' =>
        (guessPass2 rest corrects answers').map (fun res => ⟨false, a, t⟩ :: res)

/-- The full guess-checking pairing from the `Check` branch of
`LearnWordsWindow::ui`: clone the expected answers, run the exact-match
pass, then the pairing pass. -/
def checkGuesses (expected typed : List String) : Option (List TypedWord) :=
  let p := guessPass1 typed expected
  guessPass2 typed p.1 p.2

theorem count_eq_of_le_of_length_le {l1 l2 : List String}
    (hle : ∀ x, l1.count x ≤ l2.count x) (hlen : l2.length ≤ l1.length) :
    ∀ x, l1.count x = l2.count x := by
  have h1 : (l1 : Multiset String) ≤ (l2 : Multiset String) := by
    rw [Multiset.le_iff_count]
    simpa using hle
  have h2 := Multiset.eq_of_le_of_card_le h1 (by simpa using hlen)
  intro x
  have h3 := congrArg (Multiset.count x) h2
  simpa using h3

theorem guessPass1_spec (typed : List String) (answers : List String) :
    (∀ x, (guessPass1 typed answers).1.count x ≤ typed.count x) ∧
    (∀ x ∈ (guessPass1 typed answers).2,
      (guessPass1 typed answers).1.count x = typed.count x) ∧
    ((guessPass1 typed answers).1.length + (guessPass1 typed answers).2.length
      = answers.length) ∧
    ((guessPass1 typed answers).1 ++ (guessPass1 typed answers).2).Perm answers ∧
    (∀ x ∈ (guessPass1 typed answers).2, x ∈ answers) := by
  induction typed generalizing answers with
  | nil => simp [guessPass1]
  | cons t rest ih =>
    by_cases hmem : t ∈ answers
    · obtain ⟨ih1, ih2, ih3, ih4, ih5⟩ := ih (answers.erase t)
      simp only [guessPass1, if_pos hmem]
      refine ⟨?_, ?_, ?_, ?_, ?_⟩
      · intro x
        rw [List.count_cons, List.count_cons]
        exact Nat.add_le_add_right (ih1 x) _
      · intro x hx
        rw [List.count_cons, List.count_cons, ih2 x hx]
      · rw [List.length_cons, List.length_erase_of_mem hmem] at *
        have hpos : 0 < answers.length := List.length_pos_of_mem hmem
        omega
      · exact (ih4.cons t).trans (List.perm_cons_erase hmem).symm
      · intro x hx
        exact List.mem_of_mem_erase (ih5 x hx)
    · obtain ⟨ih1, ih2, ih3, ih4, ih5⟩ := ih answers
      simp only [guessPass1, if_neg hmem]
      refine ⟨?_, ?_, ih3, ih4, ih5⟩
      · intro x
        rw [List.count_cons]
        exact le_trans (ih1 x) (Nat.le_add_right _ _)
      · intro x hx
        rw [List.count_cons]
        have hxt : ¬ (t == x) = true := by
          intro he
          exact hmem (beq_iff_eq.mp he ▸ ih5 x hx)
        rw [if_neg hxt, Nat.add_zero]
        exact ih2 x hx

theorem count_cons_eq (t x : String) (l : List String) :
    (t :: l).count x = l.count x + if x = t then 1 else 0 := by
  rw [List.count_cons]
  by_cases h : x = t
  · subst h
    simp
  · have h2 : (t == x) = false := beq_eq_false_iff_ne.mpr (fun he => h he.symm)
    simp [h2, h]

theorem guessPass2_spec (remaining : List String) :
    ∀ corrects answers : List String,
    (∀ x, corrects.count x ≤ remaining.count x) →
    (∀ x ∈ answers, corrects.count x = remaining.count x) →
    (corrects.length + answers.length = remaining.length) →
    ∃ res, guessPass2 remaining corrects answers = some res ∧
      res.map (fun e => e.typed) = remaining ∧
      (∀ e ∈ res, e.correct = true → e.translation = e.typed) ∧
      (∀ e ∈ res, e.correct = false → e.translation ≠ e.typed) ∧
      (res.map (fun e => e.translation)).Perm (corrects ++ answers) := by
  induction remaining with
  | nil =>
    intro corrects answers h1 h2 h3
    have h0 : corrects.length + answers.length = 0 := by simpa using h3
    have hc : corrects = [] := List.eq_nil_of_length_eq_zero (by omega)
    have ha : answers = [] := List.eq_nil_of_length_eq_zero (by omega)
    subst hc
    subst ha
    exact ⟨[], rfl, rfl, by simp, by simp, by simp⟩
  | cons t rest ih =>
    intro corrects answers h1 h2 h3
    by_cases hmem : t ∈ corrects
    · have h1' : ∀ x, (corrects.erase t).count x ≤ rest.count x := by
        intro x
        have hx := h1 x
        rw [count_cons_eq] at hx
        by_cases hxt : x = t
        · subst hxt
          rw [if_pos rfl] at hx
          rw [List.count_erase_self]
          omega
        · rw [if_neg hxt, Nat.add_zero] at hx
          rw [List.count_erase_of_ne hxt]
          omega
      have h2' : ∀ x ∈ answers, (corrects.erase t).count x = rest.count x := by
        intro x hx
        have hx2 := h2 x hx
        rw [count_cons_eq] at hx2
        by_cases hxt : x = t
        · subst hxt
          rw [if_pos rfl] at hx2
          rw [List.count_erase_self]
          omega
        · rw [if_neg hxt, Nat.add_zero] at hx2
          rw [List.count_erase_of_ne hxt]
          omega
      have h3' : (corrects.erase t).length + answers.length = rest.length := by
        rw [List.length_erase_of_mem hmem]
        have hpos : 0 < corrects.length := List.length_pos_of_mem hmem
        have h0 : corrects.length + answers.length = rest.length + 1 := by simpa using h3
        omega
      obtain ⟨res, hres, hmap, hcor, hinc, hperm⟩ := ih (corrects.erase t) answers h1' h2' h3'
      refine ⟨⟨true, t, t⟩ :: res, ?_, ?_, ?_, ?_, ?_⟩
      · simp [guessPass2, hmem, hres]
      · simp [hmap]
      · intro e he
        rcases List.mem_cons.mp he with rfl | he'
        · intro _
          rfl
        · exact hcor e he'
      · intro e he
        rcases List.mem_cons.mp he with rfl | he'
        · intro hfalse
          cases hfalse
        · exact hinc e he'
      · refine (hperm.cons t).trans ?_
        exact ((List.perm_cons_erase hmem).symm).append_right answers
    · have hta : t ∉ answers := by
        intro hta
        have hx2 := h2 t hta
        rw [count_cons_eq, if_pos rfl] at hx2
        have hpos : 0 < corrects.count t := by omega
        exact hmem (List.count_pos_iff.mp hpos)
      cases answers with
      | nil =>
        exfalso
        have h0 : corrects.length + 0 = rest.length + 1 := by simpa using h3
        have hlen : (t :: rest).length ≤ corrects.length := by
          simp
          omega
        have hcnt := count_eq_of_le_of_length_le h1 hlen t
        rw [count_cons_eq, if_pos rfl] at hcnt
        have hpos : 0 < corrects.count t := by omega
        exact hmem (List.count_pos_iff.mp hpos)
      | cons a answers' =>
        have hcz : corrects.count t = 0 := List.count_eq_zero_of_not_mem hmem
        have h1' : ∀ x, corrects.count x ≤ rest.count x := by
          intro x
          have hx := h1 x
          rw [count_cons_eq] at hx
          by_cases hxt : x = t
          · subst hxt
            omega
          · rw [if_neg hxt, Nat.add_zero] at hx
            omega
        have h2' : ∀ x ∈ answers', corrects.count x = rest.count x := by
          intro x hx
          have hx2 := h2 x (List.mem_cons_of_mem a hx)
          have hxt : x ≠ t := by
            rintro rfl
            exact hta (List.mem_cons_of_mem a hx)
          rw [count_cons_eq, if_neg hxt, Nat.add_zero] at hx2
          exact hx2
        have h3' : corrects.length + answers'.length = rest.length := by
          have h0 : corrects.length + (answers'.length + 1) = rest.length + 1 := by
            simpa using h3
          omega
        obtain ⟨res, hres, hmap, hcor, hinc, hperm⟩ := ih corrects answers' h1' h2' h3'
        have hat : a ≠ t := by
          rintro rfl
          exact hta (List.mem_cons_self a answers')
        refine ⟨⟨false, a, t⟩ :: res, ?_, ?_, ?_, ?_, ?_⟩
        · simp [guessPass2, hmem, hres]
        · simp [hmap]
        · intro e he
          rcases List.mem_cons.mp he with rfl | he'
          · intro htrue
            cases htrue
          · exact hcor e he'
        · intro e he
          rcases List.mem_cons.mp he with rfl | he'
          · intro _
            exact hat
          · exact hinc e he'
        · exact (hperm.cons a).trans List.perm_middle.symm

/-- **C6**: for equal-length expected/typed lists the guess check completes
without panicking and performs exact-match-first pairing: the results line
up with the typed entries in order, an entry is marked correct exactly
when its paired expected answer equals what was typed (so every typed entry
equal to some not-yet-consumed expected entry is matched and marked
correct), each remaining typed entry is paired with a remaining — and
necessarily different — expected entry marked incorrect, and the paired
answers use up the expected list exactly (a permutation).  The two
scenarios of the claim are checked verbatim. -/
theorem C6_guess_pairing :
    (∀ expected typed : List String, typed.length = expected.length →
      ∃ res, checkGuesses expected typed = some res ∧
        res.map (fun e => e.typed) = typed ∧
        (∀ e ∈ res, e.correct = true → e.translation = e.typed) ∧
        (∀ e ∈ res, e.correct = false → e.translation ≠ e.typed) ∧
        (res.map (fun e => e.translation)).Perm expected) ∧
    checkGuesses ["cat", "dog"] ["dog", "cat"] =
      some [⟨true, "dog", "dog"⟩, ⟨true, "cat", "cat"⟩] ∧
    checkGuesses ["cat", "dog"] ["cat", "cow"] =
      some [⟨true, "cat", "cat"⟩, ⟨false, "dog", "cow"⟩] := by
  refine ⟨?_, by decide, by decide⟩
  intro expected typed hlen
  obtain ⟨p1, p2, p3, p4, p5⟩ := guessPass1_spec typed expected
  obtain ⟨res, hres, hmap, hcor, hinc, hperm⟩ :=
    guessPass2_spec typed (guessPass1 typed expected).1 (guessPass1 typed expected).2
      p1 p2 (by omega)
  exact ⟨res, hres, hmap, hcor, hinc, hperm.trans p4⟩

/-- Witness for C6 at a concrete input (one expected answer, one wrong
guess). -/
theorem C6_guess_pairing_witness :
    ∃ res, checkGuesses ["cat"] ["cow"] = some res ∧
      res.map (fun e => e.typed) = ["cow"] ∧
      (∀ e ∈ res, e.correct = true → e.translation = e.typed) ∧
      (∀ e ∈ res, e.correct = false → e.translation ≠ e.typed) ∧
      (res.map (fun e => e.translation)).Perm ["cat"] :=
  C6_guess_pairing.1 ["cat"] ["cow"] (by decide)

end LearnWords
